import Mathlib

/-!
Verification development for `tvconsolidator.py`, a cross-volume TV-library
consolidation script.  The script is shallowly embedded below: Python strings
are `List Char`, filesystem paths are lists of path components, Python's
unbounded integers are `Int`, and the filesystem (files with sizes,
directories, per-volume free space) is an explicit state threaded through the
executable model.  Python dictionaries that are iterated in insertion order
are modelled as association lists kept in insertion order.
-/

namespace TVC

/-- A Python string (a sequence of unicode scalar values). -/
abbrev Name := List Char

/-- A filesystem path, as the list of its components.  The first component is
the storage-root string the script was given (`os.path.join(root, ...)`). -/
abbrev Path := List Name

/-- Association-list lookup with decidable key equality, modelling Python
dict indexing `d[k]` (first matching key wins; keys are unique in practice). -/
def alookup {κ β : Type} [DecidableEq κ] (k : κ) : List (κ × β) → Option β
  | [] => none
  | (k₁, v) :: rest => if k₁ = k then some v else alookup k rest

/-! ### Character-level helpers (Python `str` methods, ASCII fragment) -/

/-- The characters Python's `str.strip()` and the regex class `\s` treat as
whitespace (ASCII fragment: space, tab, newline, return, vertical tab,
form feed). -/
def pySpace (c : Char) : Bool :=
  c = ' ' || c = '\t' || c = '\n' || c = '\r' || c = '\x0b' || c = '\x0c'

/-- One character of `re.sub(r'[._]', ' ', name)`: dots and underscores
become spaces, everything else is kept. -/
def sepToSpace (c : Char) : Char := if c = '.' || c = '_' then ' ' else c

/-- `str.strip()`: drop leading and trailing whitespace. -/
def pyStrip (l : Name) : Name :=
  ((l.dropWhile pySpace).reverse.dropWhile pySpace).reverse

/-- `re.sub(r'\s+', ' ', s)`: every maximal whitespace run becomes a single
space.  `prev` records whether the previous character was part of a run. -/
def collapseGo (prev : Bool) : Name → Name
  | [] => []
  | c :: rest =>
    if pySpace c then
      if prev then collapseGo true rest else ' ' :: collapseGo true rest
    else c :: collapseGo false rest

/-- `re.sub(r'\s+', ' ', s)` applied to a whole string. -/
def collapseWS (l : Name) : Name := collapseGo false l

/-- `normalize_name` from tvconsolidator.py: replace `.`/`_` by spaces,
strip, lowercase (ASCII model via `Char.toLower`, mirroring `str.lower` on
the names that occur), collapse whitespace runs. -/
def normalize_name (l : Name) : Name :=
  collapseWS ((pyStrip (l.map sepToSpace)).map Char.toLower)

/-- The per-character canonical form `normalize_name` is insensitive to:
separator replacement followed by ASCII lowercasing. -/
def canonChar (c : Char) : Char := Char.toLower (sepToSpace c)

/-! ### The episode pattern `(?i)S(\d+)E(\d+)` (`re.search`) -/

/-- Decimal value of a digit string (`int(...)` on a regex group). -/
def digitsVal (ds : Name) : Nat := ds.foldl (fun a c => a * 10 + (c.toNat - 48)) 0

/-- Try to match `(?i)S(\d+)E(\d+)` anchored at the head of `l`; returns
`(season, episode, length of the matched text)`.  Since `E` is not a digit,
the greedy `\d+` admits no backtracking and the match is exactly: an `S`/`s`,
a maximal nonempty digit run, an `E`/`e`, a maximal nonempty digit run. -/
def seAt : Name → Option (Nat × Nat × Nat)
  | [] => none
  | c :: rest =>
    if c = 'S' || c = 's' then
      let d1 := rest.takeWhile Char.isDigit
      if d1.isEmpty then none
      else
        match rest.drop d1.length with
        | [] => none
        | e :: rest2 =>
          if e = 'E' || e = 'e' then
            let d2 := rest2.takeWhile Char.isDigit
            if d2.isEmpty then none
            else some (digitsVal d1, digitsVal d2, 1 + d1.length + 1 + d2.length)
          else none
    else none

/-- `PATTERN.search`: first position (leftmost) where `seAt` matches; returns
`(season, episode, match.end())` with `match.end()` an absolute index. -/
def seSearchFrom : Name → Nat → Option (Nat × Nat × Nat)
  | l, pos =>
    match seAt l with
    | some (s, e, len) => some (s, e, pos + len)
    | none =>
      match l with
      | [] => none
      | _ :: rest => seSearchFrom rest (pos + 1)

/-- `PATTERN.search(f)` on a filename. -/
def seSearch (l : Name) : Option (Nat × Nat × Nat) := seSearchFrom l 0

/-! ### Configuration constants -/

/-- `MIN_FREE_BUFFER = 100 GiB`. -/
def MIN_FREE_BUFFER : Int := 100 * 1024 * 1024 * 1024

/-- `MIN_VIDEO_SIZE = 50 MB`. -/
def MIN_VIDEO_SIZE : Int := 50 * 1024 * 1024

/-- `JUNK_FILES = {'.plexmatch', '.ds_store', 'thumbs.db', 'desktop.ini'}`. -/
def JUNK_FILES : List Name :=
  [".plexmatch".data, ".ds_store".data, "thumbs.db".data, "desktop.ini".data]

/-- `f.lower() in JUNK_FILES`. -/
def isJunk (f : Name) : Bool := (f.map Char.toLower) ∈ JUNK_FILES

/-! ### Inventory data model (the nested dict built by `scan_library`) -/

/-- A companion file attached to an episode copy (smaller same-pattern file,
or a prefix-named file such as a subtitle). -/
structure Companion where
  path : Path
  size : Int
deriving DecidableEq, Inhabited

/-- One canonical episode file entry (`lib_entry['episodes'][(s,e)]` list
element). -/
structure EpisodeCopy where
  path : Path
  size : Int
  total_size : Int
  disk : Name
  rel_dir : Path
  companions : List Companion
deriving DecidableEq, Inhabited

/-- A file in a series tree claimed neither as episode copy nor companion. -/
structure Artifact where
  path : Path
  disk : Name
  rel_dir : Path
  size : Int
deriving DecidableEq, Inhabited

/-- Per (series, root) record: the literal folder name on that root and the
cumulative byte total attributed to that root. -/
structure DiskStat where
  real_folder : Name
  total_size : Int
deriving DecidableEq, Inhabited

/-- A season/episode slot. -/
abbrev Slot := Nat × Nat

/-- One series group of the scanned library (`library[norm_key]`).  The
`disks` and `episodes` association lists are kept in insertion order, like
the Python dicts they model. -/
structure SeriesData where
  display_name : Name
  disks : List (Name × DiskStat)
  episodes : List (Slot × List EpisodeCopy)
  artifacts : List Artifact
deriving DecidableEq, Inhabited

/-! ### Stable sorting (Python's `sorted`/`list.sort` are stable) -/

/-- Insert into a descending-sorted list, after any element of equal or
larger key: this reproduces the stable `sort(key=..., reverse=True)`. -/
def insertDescBy {α : Type} (key : α → Int) (x : α) : List α → List α
  | [] => [x]
  | y :: ys => if key x > key y then x :: y :: ys else y :: insertDescBy key x ys

/-- Stable sort, descending by `key` (insertion order preserved on ties). -/
def sortDescBy {α : Type} (key : α → Int) (l : List α) : List α :=
  l.foldl (fun acc x => insertDescBy key x acc) []

/-- Python string `<` (lexicographic by code point). -/
def nameLt : Name → Name → Bool
  | [], [] => false
  | [], _ :: _ => true
  | _ :: _, [] => false
  | a :: as, b :: bs => if a < b then true else if b < a then false else nameLt as bs

/-- Insert into an ascending-by-key-sorted association list (stable). -/
def insertAscKey {β : Type} (x : Name × β) : List (Name × β) → List (Name × β)
  | [] => [x]
  | y :: ys => if nameLt x.1 y.1 then x :: y :: ys else y :: insertAscKey x ys

/-- `sorted(library.keys())` applied to the whole association list (keys are
unique, so this is exactly the sorted iteration the script performs). -/
def sortAscKey {β : Type} (l : List (Name × β)) : List (Name × β) :=
  l.foldl (fun acc x => insertAscKey x acc) []

/-! ### Scanner: one directory of the `os.walk` over a series folder
(`scan_library`, the body of the `for dirpath, _, filenames in os.walk`
loop).  A directory listing is a list of `(filename, size)` pairs: the size
is what `get_file_info` reports for that file (`-1` on error). -/

/-- A filename that matched the episode pattern, with its recorded size and
the end position of the match. -/
structure MatchedFile where
  filename : Name
  path : Path
  size : Int
  match_end : Nat
deriving DecidableEq, Inhabited

/-- `local_ep_groups[(s,e)].append(entry)`: append at an existing key or add
a new key at the end (defaultdict insertion order). -/
def appendAt {β : Type} (k : Slot) (m : β) :
    List (Slot × List β) → List (Slot × List β)
  | [] => [(k, [m])]
  | (k₁, ms) :: rest =>
    if k₁ = k then (k₁, ms ++ [m]) :: rest else (k₁, ms) :: appendAt k m rest

/-- The body of the grouping loop (`for f in filenames:` with
`PATTERN.search`): a match goes into its slot's group, a non-match is
appended to `unmatched_files`. -/
def bgStep (dirpath : Path)
    (acc : List (Slot × List MatchedFile) × List (Name × Int))
    (fe : Name × Int) : List (Slot × List MatchedFile) × List (Name × Int) :=
  match seSearch fe.1 with
  | some (s, e, me) =>
    (appendAt (s, e) (MatchedFile.mk fe.1 (dirpath ++ [fe.1]) fe.2 me) acc.1, acc.2)
  | none => (acc.1, acc.2 ++ [fe])

/-- Partition a directory listing into the per-slot match groups and the
unmatched files, in listing order. -/
def buildGroups (dirpath : Path) (files : List (Name × Int)) :
    List (Slot × List MatchedFile) × List (Name × Int) :=
  files.foldl (bgStep dirpath) ([], [])

/-- The body of the prefix-companion loop (`for um_f in unmatched_files:`):
a not-yet-claimed unmatched file with the prefix becomes a companion and is
claimed. -/
def pcStep (dirpath : Path) (pfx : Name) (acc : List Companion × List Name)
    (fe : Name × Int) : List Companion × List Name :=
  if fe.1 ∈ acc.2 then acc
  else if pfx.isPrefixOf fe.1 then
    (acc.1 ++ [Companion.mk (dirpath ++ [fe.1]) fe.2], acc.2 ++ [fe.1])
  else acc

/-- The prefix-companion pass over the unmatched files: any not-yet-claimed
unmatched file whose name starts with the canonical file's name up to the
match end becomes a companion and is claimed. -/
def prefixCompanions (dirpath : Path) (pfx : Name) (um : List (Name × Int))
    (claimed : List Name) : List Companion × List Name :=
  um.foldl (pcStep dirpath pfx) ([], claimed)

/-- Process one slot group (the body of `for (s, e), group in
local_ep_groups.items()`): sort descending by size, promote the largest if
it exceeds `MIN_VIDEO_SIZE`, attach smaller matches and prefix-named
unmatched files as companions. -/
def processGroup (disk : Name) (relDir : Path) (dirpath : Path)
    (um : List (Name × Int)) (st : List Name × List (Slot × EpisodeCopy))
    (g : Slot × List MatchedFile) : List Name × List (Slot × EpisodeCopy) :=
  match sortDescBy (fun m => m.size) g.2 with
  | [] => st
  | cand :: restg =>
    if cand.size > MIN_VIDEO_SIZE then
      let claimed1 := st.1 ++ [cand.filename] ++ restg.map (fun m => m.filename)
      let comps1 := restg.map (fun m => Companion.mk m.path m.size)
      let pfx := cand.filename.take cand.match_end
      let pres := prefixCompanions dirpath pfx um claimed1
      let comps := comps1 ++ pres.1
      let tot := cand.size + (comps.map (fun c => c.size)).sum
      (pres.2,
       st.2 ++ [(g.1, EpisodeCopy.mk cand.path cand.size tot disk relDir comps)])
    else st

/-- The result of scanning one directory. -/
structure DirScan where
  entries : List (Slot × EpisodeCopy)
  artifacts : List Artifact
  claimed : List Name
deriving DecidableEq

/-- The artifact loop (`for f in filenames: if f not in files_claimed: ...`):
collect every unclaimed file as an `Artifact`, skipping dotfiles. -/
def artifactScan (dirpath : Path) (disk : Name) (relDir : Path)
    (claimed : List Name) (files : List (Name × Int)) : List Artifact :=
  files.foldl
    (fun acc fe =>
      if fe.1 ∈ claimed then acc
      else if fe.1.head? = some '.' then acc
      else acc ++ [Artifact.mk (dirpath ++ [fe.1]) disk relDir fe.2])
    []

/-- Scan one directory of a series folder on one root: grouping, local
highlander promotion, companion attachment, artifact collection.  Files whose
name starts with `'.'` are skipped by the artifact loop. -/
def processDir (disk : Name) (seriesPath : Path) (relDir : Path)
    (files : List (Name × Int)) : DirScan :=
  let dirpath := seriesPath ++ relDir
  let bg := buildGroups dirpath files
  let pg := bg.1.foldl (processGroup disk relDir dirpath bg.2) ([], [])
  DirScan.mk pg.2 (artifactScan dirpath disk relDir pg.1 files) pg.1

/-- The bytes this directory contributes to the per-root series total
(`total_size` accumulation for episode entries and artifacts). -/
def DirScan.totalAdded (d : DirScan) : Int :=
  (d.entries.map (fun e => e.2.total_size)).sum + (d.artifacts.map (fun a => a.size)).sum

/-- Scan a whole series folder on one root: fold the per-directory scan over
the walk, merging episode entries into the per-slot lists (insertion order,
across all subdirectories of the root). -/
def scanWalk (disk : Name) (seriesPath : Path)
    (walk : List (Path × List (Name × Int))) :
    List (Slot × List EpisodeCopy) × List Artifact × Int :=
  walk.foldl
    (fun acc w =>
      let ds := processDir disk seriesPath w.1 w.2
      (ds.entries.foldl (fun eps se => appendAt se.1 se.2 eps) acc.1,
       acc.2.1 ++ ds.artifacts,
       acc.2.2 + ds.totalAdded))
    ([], [], 0)

/-! ### Filesystem model

The script consumes the platform filesystem through `os.path.exists`,
`shutil.move`, `os.remove`, `os.makedirs`, `os.rmdir`, `os.listdir`,
`os.walk` and `shutil.disk_usage`.  The state is: existing files with their
sizes, existing directories, and per-root free bytes.  A move between roots
frees the source root's bytes and consumes the destination root's. -/

structure FS where
  files : List (Path × Int)
  dirs : List Path
  free : List (Name × Int)
deriving DecidableEq, Inhabited

/-- The storage root a path lives on (its first component). -/
def diskOf (p : Path) : Name := p.headD []

/-- Is there a file at `p`? -/
def FS.isFile (fs : FS) (p : Path) : Bool := (alookup p fs.files).isSome

/-- `os.path.exists`: a file or a directory at `p`. -/
def FS.pexists (fs : FS) (p : Path) : Bool := fs.isFile p || p ∈ fs.dirs

/-- `get_free_space` (`shutil.disk_usage(path).free`, `0` on `OSError`). -/
def get_free_space (fs : FS) (d : Name) : Int := (alookup d fs.free).getD 0

/-- Adjust the free-byte counter of one root. -/
def FS.adjustFree (fs : FS) (d : Name) (delta : Int) : FS :=
  FS.mk fs.files fs.dirs
    (fs.free.map (fun kv => if kv.1 = d then (kv.1, kv.2 + delta) else kv))

/-- `os.remove`: drop the file, credit its bytes back to its root. -/
def FS.removeFile (fs : FS) (p : Path) : FS :=
  let sz := (alookup p fs.files).getD 0
  let fs1 := fs.adjustFree (diskOf p) sz
  FS.mk (fs1.files.filter (fun kv => decide (kv.1 ≠ p))) fs1.dirs fs1.free

/-- Create a file of the given size, debiting its root's free bytes. -/
def FS.addFile (fs : FS) (p : Path) (sz : Int) : FS :=
  let fs1 := fs.adjustFree (diskOf p) (-sz)
  FS.mk (fs1.files ++ [(p, sz)]) fs1.dirs fs1.free

/-- `shutil.move src dst` for a file. -/
def FS.move (fs : FS) (src dst : Path) : FS :=
  let sz := (alookup src fs.files).getD 0
  (fs.removeFile src).addFile dst sz

/-- The nonempty prefixes of a path. -/
def prefixesOf (d : Path) : List Path :=
  (List.range d.length).map (fun i => d.take (i + 1))

/-- `os.makedirs(d, exist_ok=True)`: create `d` and its missing ancestors. -/
def FS.makedirs (fs : FS) (d : Path) : FS :=
  FS.mk fs.files
    (fs.dirs ++ (prefixesOf d).filter (fun q => decide (¬ q ∈ fs.dirs))) fs.free

/-- `os.rmdir`. -/
def FS.rmdir (fs : FS) (d : Path) : FS :=
  FS.mk fs.files (fs.dirs.filter (fun q => decide (q ≠ d))) fs.free

/-- The immediate subdirectories of `d` (what `os.walk` descends into). -/
def FS.childDirs (fs : FS) (d : Path) : List Path :=
  fs.dirs.filter (fun q => decide (q ≠ [] ∧ q.dropLast = d))

/-- The files directly inside `d`. -/
def FS.filesIn (fs : FS) (d : Path) : List (Path × Int) :=
  fs.files.filter (fun kv => decide (kv.1 ≠ [] ∧ kv.1.dropLast = d))

/-! ### Action log

One constructor per log line the action functions print, recorded
identically in simulate and apply mode wherever the script prints the
corresponding line in both. -/

inductive Action where
  /-- `[MOVED]` / `[DRY-RUN] mv` from `safe_move`. -/
  | moveFile (src dst : Path)
  /-- `[MERGED]` / `[DRY-RUN] (rm dst &&) mv` from `force_move`. -/
  | mergeFile (src dst : Path)
  /-- `[DELETED]` / `[DRY-RUN] rm` from `safe_delete`. -/
  | deleteFile (p : Path)
  /-- `[CLEANUP] Removed empty dir` / `[DRY-RUN] rmdir (If empty)`. -/
  | rmdirDir (d : Path)
  /-- `[ERROR] Source missing` from `safe_move`. -/
  | errorMissing (src : Path)
  /-- `[ABORT] Video collision: Target exists`. -/
  | abortCollision (dst : Path)
  /-- `[ABORT] Move failed for SxEy.` -/
  | abortEpisode (s e : Nat)
deriving DecidableEq

/-- Result of one action primitive: new state, log, Python return value. -/
structure OpRes where
  fs : FS
  acts : List Action
  ok : Bool
deriving DecidableEq

/-- `safe_move(src, dest_dir, dry_run)`: refuse a missing source or an
existing destination entry; otherwise make the directories and move. -/
def safe_move (fs : FS) (src dest_dir : Path) (dry_run : Bool) : OpRes :=
  if ¬ fs.pexists src then OpRes.mk fs [Action.errorMissing src] false
  else
    let dst := dest_dir ++ [src.getLastD []]
    if fs.pexists dst then OpRes.mk fs [Action.abortCollision dst] false
    else if dry_run then OpRes.mk fs [Action.moveFile src dst] true
    else OpRes.mk ((fs.makedirs dest_dir).move src dst) [Action.moveFile src dst] true

/-- `force_move(src, dest_dir, dry_run)`: move, removing any existing
destination file first (overwrite). -/
def force_move (fs : FS) (src dest_dir : Path) (dry_run : Bool) : OpRes :=
  if ¬ fs.pexists src then OpRes.mk fs [] false
  else
    let dst := dest_dir ++ [src.getLastD []]
    if dry_run then OpRes.mk fs [Action.mergeFile src dst] true
    else
      let fs1 := fs.makedirs dest_dir
      let fs2 := if fs1.pexists dst then fs1.removeFile dst else fs1
      OpRes.mk (fs2.move src dst) [Action.mergeFile src dst] true

/-- `safe_delete(src, dry_run)`: in apply mode delete (and log) only when the
file exists; in dry-run mode always log the intent. -/
def safe_delete (fs : FS) (p : Path) (dry_run : Bool) : OpRes :=
  if dry_run then OpRes.mk fs [Action.deleteFile p] true
  else if fs.pexists p then OpRes.mk (fs.removeFile p) [Action.deleteFile p] true
  else OpRes.mk fs [] true

/-- Run a state-and-log-threading step over a list (a `for` loop whose body
may mutate the filesystem and print). -/
def runAll {α : Type} (f : FS → α → FS × List Action) : FS → List α → FS × List Action
  | fs, [] => (fs, [])
  | fs, a :: rest =>
    let r := f fs a
    let r2 := runAll f r.1 rest
    (r2.1, r.2 ++ r2.2)

/-! ### `cleanup_folder_tree` on the path-based filesystem

`os.walk(path, topdown=False)` visits children before parents; each
directory's file listing is unaffected by the processing of its
subdirectories (which only touches entries strictly below them).  The walk's
recursion depth is bounded by the longest directory path, which the wrapper
passes as fuel; the fuel is strictly larger than the depth of any directory,
so the zero-fuel branch is never taken on inputs coming from the state. -/

/-- Iterate a cleanup step over the child directories, threading the state. -/
def goChildren (step : FS → Path → FS × List Action) :
    FS → List Path → FS × List Action
  | fs, [] => (fs, [])
  | fs, c :: cs =>
    let r := step fs c
    let r2 := goChildren step r.1 cs
    (r2.1, r.2 ++ r2.2)

/-- The per-directory body of `cleanup_folder_tree`'s walk, bottom-up. -/
def cleanupFlatGo : Nat → Bool → FS → Path → FS × List Action
  | 0, _, fs, _ => (fs, [])
  | fuel + 1, dry, fs, d =>
    let r1 := goChildren (cleanupFlatGo fuel dry) fs (fs.childDirs d)
    let fnames := (r1.1.filesIn d).map (fun kv => kv.1.getLastD [])
    let is_empty := fnames.all (fun f => isJunk f)
    let r2 := runAll
      (fun s fn =>
        if isJunk fn then
          let r := safe_delete s (d ++ [fn]) dry
          (r.fs, r.acts)
        else (s, []))
      r1.1 fnames
    if is_empty then
      if dry then (r2.1, r1.2 ++ r2.2 ++ [Action.rmdirDir d])
      else if (r2.1.filesIn d).isEmpty && (r2.1.childDirs d).isEmpty then
        ((r2.1.rmdir d), r1.2 ++ r2.2 ++ [Action.rmdirDir d])
      else (r2.1, r1.2 ++ r2.2)
    else (r2.1, r1.2 ++ r2.2)

/-- `cleanup_folder_tree(path, dry_run)`. -/
def cleanup_folder_tree (fs : FS) (p : Path) (dry : Bool) : FS × List Action :=
  if ¬ fs.pexists p then (fs, [])
  else cleanupFlatGo (fs.dirs.foldl (fun m q => max m q.length) 0 + 1) dry fs p

/-! ### `process_consolidation` -/

/-- The conflicting-duplicates test (lines 349-355): some slot has more than
one copy and more than one distinct recorded size among the copies. -/
def hasBadDupe (episodes : List (Slot × List EpisodeCopy)) : Bool :=
  episodes.any
    (fun ep => decide (ep.2.length > 1) && decide ((ep.2.map (fun c => c.size)).dedup.length > 1))

/-- `copies[0]['total_size']` (a scanned slot list is never empty). -/
def firstTotal : List EpisodeCopy → Int
  | [] => 0
  | c :: _ => c.total_size

/-- `bytes_needed` for a candidate root: aggregate size of every slot with no
copy on it, plus the size of every artifact not on it. -/
def bytesNeeded (episodes : List (Slot × List EpisodeCopy))
    (artifacts : List Artifact) (disk : Name) : Int :=
  episodes.foldl
    (fun acc ep =>
      if ep.2.any (fun c => decide (c.disk = disk)) then acc else acc + firstTotal ep.2)
    0
  + artifacts.foldl
      (fun acc a => if decide (a.disk ≠ disk) then acc + a.size else acc) 0

/-- The candidate list: the series' roots, stable-sorted descending by their
current per-series `total_size`. -/
def sortedCandidates (disks : List (Name × DiskStat)) : List (Name × DiskStat) :=
  sortDescBy (fun kv => kv.2.total_size) disks

/-- The candidate loop (lines 372-392): first candidate whose live free space
minus `bytes_needed` strictly exceeds `MIN_FREE_BUFFER`; returns the chosen
root, its existing folder name, and the planned import size. -/
def selectTarget (fs : FS) (episodes : List (Slot × List EpisodeCopy))
    (artifacts : List Artifact) : List (Name × DiskStat) → Option (Name × Name × Int)
  | [] => none
  | (disk, meta) :: rest =>
    let needed := bytesNeeded episodes artifacts disk
    if get_free_space fs disk - needed > MIN_FREE_BUFFER then
      some (disk, meta.real_folder, needed)
    else selectTarget fs episodes artifacts rest

/-- Delete one episode copy together with its companions. -/
def deleteCopy (dry : Bool) (fs : FS) (c : EpisodeCopy) : FS × List Action :=
  let r1 := safe_delete fs c.path dry
  let r2 := runAll
    (fun s comp =>
      let r := safe_delete s comp.path dry
      (r.fs, r.acts))
    r1.fs c.companions
  (r2.1, r1.acts ++ r2.2)

/-- Per-episode reconciliation (lines 405-430). -/
def processEpisode (dry : Bool) (target_disk : Name) (target_root : Path)
    (fs : FS) (ep : Slot × List EpisodeCopy) : FS × List Action :=
  let on_target := ep.2.filter (fun c => decide (c.disk = target_disk))
  let others := ep.2.filter (fun c => decide (c.disk ≠ target_disk))
  if ¬ on_target.isEmpty then
    runAll (deleteCopy dry) fs others
  else
    match others with
    | [] => (fs, [])
    | src :: redundant =>
      let dest_dir := target_root ++ src.rel_dir
      let r1 := safe_move fs src.path dest_dir dry
      if r1.ok then
        let r2 := runAll
          (fun s comp =>
            let r := force_move s comp.path dest_dir dry
            (r.fs, r.acts))
          r1.fs src.companions
        let r3 := runAll (deleteCopy dry) r2.1 redundant
        (r3.1, r1.acts ++ r2.2 ++ r3.2)
      else (r1.fs, r1.acts ++ [Action.abortEpisode ep.1.1 ep.1.2])

/-- `"SKIPPED <name>: Conflicting duplicates (different sizes) found."` -/
def conflictMsg (display : Name) : Name :=
  "SKIPPED ".data ++ display ++ ": Conflicting duplicates (different sizes) found.".data

/-- `"SKIPPED <name>: No candidate disk has enough free space."` -/
def noSpaceMsg (display : Name) : Name :=
  "SKIPPED ".data ++ display ++ ": No candidate disk has enough free space.".data

/-- The observable outcome of processing: final state, action log, skipped
report, and the target-disk decisions (one entry per series that reached
target selection; `none` records the no-space skip). -/
structure SeriesOutcome where
  fs : FS
  actions : List Action
  skipped : List Name
  decisions : List (Name × Option Name)
deriving DecidableEq

/-- `data['disks'][disk_path]['real_folder']`. -/
def realFolderOf (disks : List (Name × DiskStat)) (dk : Name) : Name :=
  ((alookup dk disks).getD default).real_folder

/-- One iteration of the series loop of `process_consolidation`. -/
def processSeries (execute : Bool) (fs : FS) (norm_key : Name)
    (data : SeriesData) : SeriesOutcome :=
  let involved := data.disks.map (fun kv => kv.1)
  if involved.length ≤ 1 then SeriesOutcome.mk fs [] [] []
  else if hasBadDupe data.episodes then
    SeriesOutcome.mk fs [] [conflictMsg data.display_name] []
  else
    match selectTarget fs data.episodes data.artifacts (sortedCandidates data.disks) with
    | none => SeriesOutcome.mk fs [] [noSpaceMsg data.display_name] [(norm_key, none)]
    | some (target_disk, folder, _) =>
      let target_root : Path := [target_disk, folder]
      let dry := ! execute
      let r1 := runAll (processEpisode dry target_disk target_root) fs data.episodes
      let r2 := runAll
        (fun s art =>
          if decide (art.disk ≠ target_disk) then
            let r := force_move s art.path (target_root ++ art.rel_dir) dry
            (r.fs, r.acts)
          else (s, []))
        r1.1 data.artifacts
      let r3 := runAll
        (fun s dk =>
          if decide (dk = target_disk) then (s, [])
          else cleanup_folder_tree s [dk, realFolderOf data.disks dk] dry)
        r2.1 involved
      SeriesOutcome.mk r3.1 (r1.2 ++ r2.2 ++ r3.2) [] [(norm_key, some target_disk)]

/-- The series loop over an already-sorted library. -/
def processList (execute : Bool) (fs : FS) :
    List (Name × SeriesData) → SeriesOutcome
  | [] => SeriesOutcome.mk fs [] [] []
  | kv :: rest =>
    let o := processSeries execute fs kv.1 kv.2
    let r := processList execute o.fs rest
    SeriesOutcome.mk r.fs (o.actions ++ r.actions) (o.skipped ++ r.skipped)
      (o.decisions ++ r.decisions)

/-- `process_consolidation(library, execute)`: series in sorted key order. -/
def processConsolidation (execute : Bool) (fs : FS)
    (library : List (Name × SeriesData)) : SeriesOutcome :=
  processList execute fs (sortAscKey library)

/-! ### `cleanup_folder_tree` as a structural directory tree

For the Cleaner claims the folder tree is modelled directly as a rose tree;
`cleanupTree` returns `none` when the directory is removed, together with the
log of deletions (`del`) and removals/intents (`rmdir`).  In dry-run mode the
tree is returned unchanged: every filesystem mutation in the source is
guarded by `if not dry_run`. -/

inductive DirTree where
  | node (files : List Name) (subs : List DirTree)

/-- Cleanup log entries for the tree model. -/
inductive CAct where
  | del (f : Name)
  | rmdir
deriving DecidableEq

mutual

/-- One directory of the bottom-up walk: clean the subdirectories, delete the
junk files, and remove the directory if its live listing is empty.  In
dry-run mode only the log is produced. -/
def cleanupTree (dry : Bool) : DirTree → Option DirTree × List CAct
  | .node files subs =>
    let rs := cleanupSubs dry subs
    let junkActs := (files.filter (fun f => isJunk f)).map CAct.del
    let keep := files.filter (fun f => ¬ isJunk f)
    let is_empty := files.all (fun f => isJunk f)
    if dry then
      (some (.node files subs),
       rs.2 ++ junkActs ++ (if is_empty then [CAct.rmdir] else []))
    else if is_empty && rs.1.isEmpty then (none, rs.2 ++ junkActs ++ [CAct.rmdir])
    else (some (.node keep rs.1), rs.2 ++ junkActs)

/-- The subdirectories, children before parents; removed children disappear
from the surviving listing. -/
def cleanupSubs (dry : Bool) : List DirTree → List DirTree × List CAct
  | [] => ([], [])
  | t :: ts =>
    let r := cleanupTree dry t
    let rs := cleanupSubs dry ts
    match r.1 with
    | none => (rs.1, r.2 ++ rs.2)
    | some t₁ => (t₁ :: rs.1, r.2 ++ rs.2)

end

mutual

/-- Every file in the whole tree (recursively) is a junk file (used to state
that the cleaner only ever removes junk-only trees). -/
def allJunkB : DirTree → Bool
  | .node files subs => files.all (fun f => isJunk f) && allJunkSubsB subs

/-- `allJunkB` over a list of subtrees. -/
def allJunkSubsB : List DirTree → Bool
  | [] => true
  | t :: ts => allJunkB t && allJunkSubsB ts

end

/-! ### Concrete fixtures

Small concrete libraries and filesystem snapshots used to instantiate the
theorems below and to evaluate the model on explicit inputs. -/

/-- First storage root. -/
def rootA : Name := "d1".data

/-- Second storage root. -/
def rootB : Name := "d2".data

/-- Series FooA: episode S01E01 only on `rootA`, S01E02 only on `rootB`;
`rootB` holds more bytes, so it is the preferred candidate. -/
def serFooA : SeriesData :=
  SeriesData.mk ("FooA".data)
    [(rootA, DiskStat.mk ("FooA".data) 10000000000),
     (rootB, DiskStat.mk ("FooA2".data) 20000000000)]
    [((1, 1), [EpisodeCopy.mk [rootA, "FooA".data, "FooA.S01E01.mkv".data]
        10000000000 10000000000 rootA [] []]),
     ((1, 2), [EpisodeCopy.mk [rootB, "FooA2".data, "FooA.S01E02.mkv".data]
        20000000000 20000000000 rootB [] []])]
    []

/-- Series FooB, shaped like FooA (episodes S02E01/S02E02). -/
def serFooB : SeriesData :=
  SeriesData.mk ("FooB".data)
    [(rootA, DiskStat.mk ("FooB".data) 10000000000),
     (rootB, DiskStat.mk ("FooB2".data) 20000000000)]
    [((2, 1), [EpisodeCopy.mk [rootA, "FooB".data, "FooB.S02E01.mkv".data]
        10000000000 10000000000 rootA [] []]),
     ((2, 2), [EpisodeCopy.mk [rootB, "FooB2".data, "FooB.S02E02.mkv".data]
        20000000000 20000000000 rootB [] []])]
    []

/-- Snapshot for the two series: `rootB` has just enough free space for one
10 GB import above the buffer, `rootA` has none. -/
def fsTwoSeries : FS :=
  FS.mk
    [([rootA, "FooA".data, "FooA.S01E01.mkv".data], 10000000000),
     ([rootB, "FooA2".data, "FooA.S01E02.mkv".data], 20000000000),
     ([rootA, "FooB".data, "FooB.S02E01.mkv".data], 10000000000),
     ([rootB, "FooB2".data, "FooB.S02E02.mkv".data], 20000000000)]
    [[rootA], [rootB], [rootA, "FooA".data], [rootB, "FooA2".data],
     [rootA, "FooB".data], [rootB, "FooB2".data]]
    [(rootA, 0), (rootB, 117374182401)]

/-- The two-series library. -/
def libTwoSeries : List (Name × SeriesData) :=
  [("fooa".data, serFooA), ("foob".data, serFooB)]

/-- Series Bar: the same slot S01E01 on two roots with different sizes. -/
def serBar : SeriesData :=
  SeriesData.mk ("Bar".data)
    [(rootA, DiskStat.mk ("Bar".data) 100000000),
     (rootB, DiskStat.mk ("bar".data) 90000000)]
    [((1, 1), [EpisodeCopy.mk [rootA, "Bar".data, "Bar.S01E01.mkv".data]
        100000000 100000000 rootA [] [],
      EpisodeCopy.mk [rootB, "bar".data, "Bar.S01E01.mkv".data]
        90000000 90000000 rootB [] []])]
    []

/-- A walk of one series folder on `rootA` with two directories, both holding
a copy of S01E01 with different sizes. -/
def walkBaz : List (Path × List (Name × Int)) :=
  [([], [("Baz.S01E01.mkv".data, 100000000)]),
   (["Season 1".data], [("Baz.S01E01.x264.mkv".data, 90000000)])]

/-- Series Baz: episodes produced by scanning `walkBaz` on `rootA` alone,
plus a second root carrying the same series name. -/
def serBaz : SeriesData :=
  SeriesData.mk ("Baz".data)
    [(rootA, DiskStat.mk ("Baz".data) 190000000),
     (rootB, DiskStat.mk ("Baz".data) 0)]
    (scanWalk rootA [rootA, "Baz".data] walkBaz).1
    []

/-- Series Qux: S01E01 with a subtitle companion on `rootA`, S01E02 on
`rootB`; used to exhibit the companion overwrite. -/
def serQux : SeriesData :=
  SeriesData.mk ("Qux".data)
    [(rootA, DiskStat.mk ("Qux".data) 1000000007),
     (rootB, DiskStat.mk ("Qux2".data) 2000000000)]
    [((1, 1), [EpisodeCopy.mk [rootA, "Qux".data, "Qux.S01E01.mkv".data]
        1000000000 1000000007 rootA []
        [Companion.mk [rootA, "Qux".data, "Qux.S01E01.srt".data] 7]]),
     ((1, 2), [EpisodeCopy.mk [rootB, "Qux2".data, "Qux.S01E02.mkv".data]
        2000000000 2000000000 rootB [] []])]
    []

/-- Snapshot for Qux: the destination folder on `rootB` already holds a file
named like the subtitle companion (recorded size 5). -/
def fsQux : FS :=
  FS.mk
    [([rootA, "Qux".data, "Qux.S01E01.mkv".data], 1000000000),
     ([rootA, "Qux".data, "Qux.S01E01.srt".data], 7),
     ([rootB, "Qux2".data, "Qux.S01E01.srt".data], 5),
     ([rootB, "Qux2".data, "Qux.S01E02.mkv".data], 2000000000)]
    [[rootA], [rootB], [rootA, "Qux".data], [rootB, "Qux2".data]]
    [(rootA, 0), (rootB, 108374182408)]

/-- An episode copy on `rootA` whose same-named destination on `rootB`
already exists (collision scenario). -/
def epColl : EpisodeCopy :=
  EpisodeCopy.mk [rootA, "Foo".data, "v.S01E01.mkv".data] 100000000 100000000
    rootA [] []

/-- Snapshot for the collision scenario: the video exists on both roots. -/
def fsColl : FS :=
  FS.mk
    [([rootA, "Foo".data, "v.S01E01.mkv".data], 100000000),
     ([rootB, "Foo2".data, "v.S01E01.mkv".data], 100000000)]
    [[rootA], [rootB], [rootA, "Foo".data], [rootB, "Foo2".data]]
    [(rootA, 0), (rootB, 0)]

/-! ## Theorems -/

/-! ### Generic list helpers -/

theorem one_lt_length_of_mem_ne {α : Type} {a b : α} {l : List α}
    (ha : a ∈ l) (hb : b ∈ l) (hne : a ≠ b) : 1 < l.length := by
  match l with
  | [] => cases ha
  | [x] =>
    rw [List.mem_singleton] at ha hb
    exact absurd (ha.trans hb.symm) hne
  | x :: y :: rest => simp [List.length_cons]

theorem dedup_length_le_one {α : Type} [DecidableEq α] {l : List α}
    (h : ∀ x ∈ l, ∀ y ∈ l, x = y) : l.dedup.length ≤ 1 := by
  match hd : l.dedup with
  | [] => simp
  | [x] => simp
  | x :: y :: rest =>
    have hx : x ∈ l := List.mem_dedup.1 (hd ▸ List.mem_cons_self x (y :: rest))
    have hy : y ∈ l := List.mem_dedup.1 (hd ▸ List.mem_cons_of_mem x (List.mem_cons_self y rest))
    have hnd := List.nodup_dedup l
    rw [hd] at hnd
    have : x ≠ y := by
      intro hxy
      exact (List.nodup_cons.1 hnd).1 (hxy ▸ List.mem_cons_self y rest)
    exact absurd (h x hx y hy) this

/-! ### Conflict gate -/

theorem hasBadDupe_of_witness {episodes : List (Slot × List EpisodeCopy)}
    (h : ∃ ep ∈ episodes, 1 < ep.2.length ∧ 1 < (ep.2.map (fun c => c.size)).dedup.length) :
    hasBadDupe episodes = true := by
  obtain ⟨ep, hmem, h1, h2⟩ := h
  exact List.any_eq_true.2 ⟨ep, hmem, by simp [h1, h2]⟩

theorem hasBadDupe_eq_false_of_equal {episodes : List (Slot × List EpisodeCopy)}
    (h : ∀ ep ∈ episodes, ∀ c₁ ∈ ep.2, ∀ c₂ ∈ ep.2, c₁.size = c₂.size) :
    hasBadDupe episodes = false := by
  rw [hasBadDupe, List.any_eq_false]
  intro ep hmem
  simp only [Bool.and_eq_true, decide_eq_true_eq, not_and]
  intro _
  have : (ep.2.map (fun c => c.size)).dedup.length ≤ 1 := by
    apply dedup_length_le_one
    intro x hx y hy
    obtain ⟨cx, hcx, rfl⟩ := List.mem_map.1 hx
    obtain ⟨cy, hcy, rfl⟩ := List.mem_map.1 hy
    exact h ep hmem cx hcx cy hcy
  omega

theorem processSeries_conflict_skip (execute : Bool) (fs : FS) (k : Name)
    (data : SeriesData) (hm : 1 < data.disks.length)
    (hbd : hasBadDupe data.episodes = true) :
    processSeries execute fs k data =
      SeriesOutcome.mk fs [] [conflictMsg data.display_name] [] := by
  simp only [processSeries, List.length_map]
  rw [if_neg (by omega), if_pos hbd]

theorem processSeries_decisions_shape (execute : Bool) (fs : FS) (k : Name)
    (data : SeriesData) (hm : 1 < data.disks.length)
    (hbd : hasBadDupe data.episodes = false) :
    ∃ r, (processSeries execute fs k data).decisions = [(k, r)] := by
  simp only [processSeries, List.length_map]
  rw [if_neg (by omega), if_neg (by simp [hbd])]
  match hsel : selectTarget fs data.episodes data.artifacts (sortedCandidates data.disks) with
  | none => exact ⟨none, rfl⟩
  | some (t, f, n) => exact ⟨some t, rfl⟩

/-- C1: for a series present on more than one root, a slot with several
copies and several distinct recorded sizes makes the whole series skip with
the conflicting-duplicates reason, zero actions and an unchanged filesystem;
and when every slot's copies agree in size the conflict test is false and the
series goes on to target selection. -/
theorem c1_conflict_gate (execute : Bool) (fs : FS) (k : Name) (data : SeriesData)
    (hm : 1 < data.disks.length) :
    ((∃ ep ∈ data.episodes,
        1 < ep.2.length ∧ 1 < (ep.2.map (fun c => c.size)).dedup.length) →
      processSeries execute fs k data =
        SeriesOutcome.mk fs [] [conflictMsg data.display_name] []) ∧
    ((∀ ep ∈ data.episodes, ∀ c₁ ∈ ep.2, ∀ c₂ ∈ ep.2, c₁.size = c₂.size) →
      hasBadDupe data.episodes = false ∧
      ∃ r, (processSeries execute fs k data).decisions = [(k, r)]) := by
  constructor
  · intro hex
    exact processSeries_conflict_skip execute fs k data hm (hasBadDupe_of_witness hex)
  · intro hall
    have hbd := hasBadDupe_eq_false_of_equal hall
    exact ⟨hbd, processSeries_decisions_shape execute fs k data hm hbd⟩

/-- C10: the conflict gate fires even when the two unequal-sized copies of a
slot live on the same root (in different subdirectories): grouping is per
slot across the whole series, not per root. -/
theorem c10_same_root_conflict (execute : Bool) (fs : FS) (k : Name)
    (data : SeriesData) (hm : 1 < data.disks.length)
    (ep : Slot × List EpisodeCopy) (hep : ep ∈ data.episodes)
    (c₁ c₂ : EpisodeCopy) (h₁ : c₁ ∈ ep.2) (h₂ : c₂ ∈ ep.2)
    (hdisk : c₁.disk = c₂.disk) (hrel : c₁.rel_dir ≠ c₂.rel_dir)
    (hsize : c₁.size ≠ c₂.size) :
    processSeries execute fs k data =
      SeriesOutcome.mk fs [] [conflictMsg data.display_name] [] := by
  apply processSeries_conflict_skip execute fs k data hm
  apply hasBadDupe_of_witness
  refine ⟨ep, hep, ?_, ?_⟩
  · exact one_lt_length_of_mem_ne h₁ h₂ (fun h => hsize (h ▸ rfl))
  · exact one_lt_length_of_mem_ne
      (List.mem_dedup.2 (List.mem_map.2 ⟨c₁, h₁, rfl⟩))
      (List.mem_dedup.2 (List.mem_map.2 ⟨c₂, h₂, rfl⟩)) hsize

/-! ### Stable sort properties -/

theorem insertDescBy_perm {α : Type} (key : α → Int) (x : α) (l : List α) :
    List.Perm (insertDescBy key x l) (x :: l) := by
  induction l with
  | nil => rfl
  | cons y ys ih =>
    rw [insertDescBy]
    split
    · rfl
    · exact (ih.cons y).trans (List.Perm.swap x y ys)

theorem sortDescBy_go_perm {α : Type} (key : α → Int) :
    ∀ (l acc : List α),
      List.Perm (l.foldl (fun a x => insertDescBy key x a) acc) (acc ++ l) := by
  intro l
  induction l with
  | nil => simp
  | cons x xs ih =>
    intro acc
    have h1 := ih (insertDescBy key x acc)
    have h2 := (insertDescBy_perm key x acc).append_right xs
    have h3 : List.Perm ((x :: acc) ++ xs) (acc ++ x :: xs) := List.perm_middle.symm
    exact (h1.trans h2).trans h3

theorem sortDescBy_perm {α : Type} (key : α → Int) (l : List α) :
    List.Perm (sortDescBy key l) l := sortDescBy_go_perm key l []

theorem insertDescBy_sorted {α : Type} (key : α → Int) (x : α) {l : List α}
    (h : List.Pairwise (fun a b => key b ≤ key a) l) : List.Pairwise (fun a b => key b ≤ key a) (insertDescBy key x l) := by
  induction l with
  | nil => exact List.pairwise_singleton _ x
  | cons y ys ih =>
    rw [insertDescBy]
    split
    · rename_i hgt
      refine List.Pairwise.cons ?_ h
      intro z hz
      rcases List.mem_cons.1 hz with rfl | hz
      · omega
      · have := (List.pairwise_cons.1 h).1 z hz
        omega
    · rename_i hng
      rw [List.pairwise_cons] at h
      refine List.Pairwise.cons ?_ (ih h.2)
      intro z hz
      have hz₁ := (insertDescBy_perm key x ys).mem_iff.1 hz
      rcases List.mem_cons.1 hz₁ with rfl | hz₂
      · omega
      · exact h.1 z hz₂

theorem sortDescBy_go_sorted {α : Type} (key : α → Int) :
    ∀ (l acc : List α), List.Pairwise (fun a b => key b ≤ key a) acc →
      List.Pairwise (fun a b => key b ≤ key a) (l.foldl (fun a x => insertDescBy key x a) acc) := by
  intro l
  induction l with
  | nil => exact fun acc h => h
  | cons x xs ih => exact fun acc h => ih _ (insertDescBy_sorted key x h)

theorem sortDescBy_sorted {α : Type} (key : α → Int) (l : List α) :
    List.Pairwise (fun a b => key b ≤ key a) (sortDescBy key l) :=
  sortDescBy_go_sorted key l [] (List.Pairwise.nil)

theorem insertDescBy_filter {α : Type} (key : α → Int) (x : α) {l : List α}
    (h : List.Pairwise (fun a b => key b ≤ key a) l) (v : Int) :
    (insertDescBy key x l).filter (fun a => decide (key a = v)) =
      if key x = v then l.filter (fun a => decide (key a = v)) ++ [x]
      else l.filter (fun a => decide (key a = v)) := by
  induction l with
  | nil =>
    rw [insertDescBy]
    by_cases hxv : key x = v <;> simp [List.filter_cons, hxv]
  | cons y ys ih =>
    rw [insertDescBy]
    split
    · rename_i hgt
      by_cases hxv : key x = v
      · have hnil : (y :: ys).filter (fun a => decide (key a = v)) = [] := by
          rw [List.filter_eq_nil_iff]
          intro z hz
          have hle : key z ≤ key y := by
            rcases List.mem_cons.1 hz with rfl | hz₂
            · exact le_refl _
            · exact (List.pairwise_cons.1 h).1 z hz₂
          simp only [decide_eq_true_eq]
          omega
        rw [if_pos hxv, hnil, List.filter_cons, hnil,
          if_pos (show (decide (key x = v)) = true by simp [hxv])]
        rfl
      · rw [if_neg hxv, List.filter_cons, if_neg (by simp [hxv])]
    · rename_i hng
      rw [List.pairwise_cons] at h
      have ihh := ih h.2
      by_cases hyv : key y = v <;> by_cases hxv : key x = v <;>
        simp [List.filter_cons, hyv, hxv, ihh]

theorem sortDescBy_go_filter {α : Type} (key : α → Int) (v : Int) :
    ∀ (l acc : List α), List.Pairwise (fun a b => key b ≤ key a) acc →
      (l.foldl (fun a x => insertDescBy key x a) acc).filter (fun a => decide (key a = v)) =
        acc.filter (fun a => decide (key a = v)) ++ l.filter (fun a => decide (key a = v)) := by
  intro l
  induction l with
  | nil => simp
  | cons x xs ih =>
    intro acc hacc
    have step : (x :: xs).foldl (fun a y => insertDescBy key y a) acc
        = xs.foldl (fun a y => insertDescBy key y a) (insertDescBy key x acc) := rfl
    rw [step, ih _ (insertDescBy_sorted key x hacc), insertDescBy_filter key x hacc v]
    by_cases hxv : key x = v <;>
      simp [List.filter_cons, hxv]

theorem sortDescBy_filter {α : Type} (key : α → Int) (l : List α) (v : Int) :
    (sortDescBy key l).filter (fun a => decide (key a = v)) =
      l.filter (fun a => decide (key a = v)) := by
  have h := sortDescBy_go_filter key v l [] List.Pairwise.nil
  simpa [sortDescBy] using h

/-! ### Target selection -/

theorem selectTarget_some_spec (fs : FS) (eps : List (Slot × List EpisodeCopy))
    (arts : List Artifact) :
    ∀ (cands : List (Name × DiskStat)) (t f : Name) (n : Int),
      selectTarget fs eps arts cands = some (t, f, n) →
      n = bytesNeeded eps arts t ∧
      get_free_space fs t - n > MIN_FREE_BUFFER ∧
      ∃ pre meta post, cands = pre ++ (t, meta) :: post ∧ f = meta.real_folder ∧
        ∀ x ∈ pre, ¬(get_free_space fs x.1 - bytesNeeded eps arts x.1 > MIN_FREE_BUFFER) := by
  intro cands
  induction cands with
  | nil => intro t f n h; simp [selectTarget] at h
  | cons c rest ih =>
    intro t f n h
    match c with
    | (d, m) =>
      rw [selectTarget] at h
      split at h
      · rename_i hq
        injection h with h₁
        injection h₁ with ht hfn
        injection hfn with hf hn
        subst ht; subst hf; subst hn
        exact ⟨rfl, hq, [], m, rest, rfl, rfl, by simp⟩
      · rename_i hq
        obtain ⟨hn, hqt, pre, meta, post, hsplit, hf, hpre⟩ := ih t f n h
        refine ⟨hn, hqt, (d, m) :: pre, meta, post, by rw [hsplit]; rfl, hf, ?_⟩
        intro x hx
        rcases List.mem_cons.1 hx with rfl | hx₂
        · exact hq
        · exact hpre x hx₂

theorem processSeries_no_space (execute : Bool) (fs : FS) (k : Name)
    (data : SeriesData) (hm : 1 < data.disks.length)
    (hbd : hasBadDupe data.episodes = false)
    (hsel : selectTarget fs data.episodes data.artifacts
      (sortedCandidates data.disks) = none) :
    processSeries execute fs k data =
      SeriesOutcome.mk fs [] [noSpaceMsg data.display_name] [(k, none)] := by
  simp only [processSeries, List.length_map]
  rw [if_neg (by omega), if_neg (by simp [hbd]), hsel]

theorem processSeries_selected (execute : Bool) (fs : FS) (k : Name)
    (data : SeriesData) (hm : 1 < data.disks.length)
    (hbd : hasBadDupe data.episodes = false) (t f : Name) (n : Int)
    (hsel : selectTarget fs data.episodes data.artifacts
      (sortedCandidates data.disks) = some (t, f, n)) :
    (processSeries execute fs k data).decisions = [(k, some t)] ∧
    (processSeries execute fs k data).skipped = [] := by
  simp only [processSeries, List.length_map]
  rw [if_neg (by omega), if_neg (by simp [hbd]), hsel]
  exact ⟨rfl, rfl⟩

/-- C2: for a conflict-free multi-root series, candidates are the series'
roots in descending `total_size` order with ties kept in enumeration order
(the filtered-by-key equality); a selected target satisfies the strict
free-space inequality and is the first qualifying candidate; and when no
candidate qualifies the series is skipped with the no-space reason, with no
action performed and the state unchanged. -/
theorem c2_target_selection (execute : Bool) (fs : FS) (k : Name)
    (data : SeriesData) (hm : 1 < data.disks.length)
    (hbd : hasBadDupe data.episodes = false) :
    List.Perm (sortedCandidates data.disks) data.disks ∧
    List.Pairwise (fun a b => b.2.total_size ≤ a.2.total_size)
      (sortedCandidates data.disks) ∧
    (∀ v : Int,
      (sortedCandidates data.disks).filter (fun kv => decide (kv.2.total_size = v)) =
        data.disks.filter (fun kv => decide (kv.2.total_size = v))) ∧
    (∀ t f n, selectTarget fs data.episodes data.artifacts
        (sortedCandidates data.disks) = some (t, f, n) →
      get_free_space fs t - bytesNeeded data.episodes data.artifacts t >
        MIN_FREE_BUFFER ∧
      (∃ pre meta post, sortedCandidates data.disks = pre ++ (t, meta) :: post ∧
        f = meta.real_folder ∧
        ∀ x ∈ pre,
          ¬(get_free_space fs x.1 - bytesNeeded data.episodes data.artifacts x.1 >
            MIN_FREE_BUFFER)) ∧
      (processSeries execute fs k data).decisions = [(k, some t)]) ∧
    (selectTarget fs data.episodes data.artifacts (sortedCandidates data.disks) = none →
      processSeries execute fs k data =
        SeriesOutcome.mk fs [] [noSpaceMsg data.display_name] [(k, none)]) := by
  refine ⟨sortDescBy_perm _ data.disks, sortDescBy_sorted _ data.disks,
    fun v => sortDescBy_filter _ data.disks v, ?_, ?_⟩
  · intro t f n hsel
    obtain ⟨hn, hq, pre, meta, post, hsplit, hf, hpre⟩ :=
      selectTarget_some_spec fs data.episodes data.artifacts _ t f n hsel
    exact ⟨hn ▸ hq, ⟨pre, meta, post, hsplit, hf, hpre⟩,
      (processSeries_selected execute fs k data hm hbd t f n hsel).1⟩
  · intro hsel
    exact processSeries_no_space execute fs k data hm hbd hsel

/-! ### Association-list and runAll helpers -/

theorem alookup_eq_none_iff {κ β : Type} [DecidableEq κ] (k : κ) :
    ∀ (l : List (κ × β)), alookup k l = none ↔ ∀ p ∈ l, p.1 ≠ k := by
  intro l
  induction l with
  | nil => simp [alookup]
  | cons x rest ih =>
    match x with
    | (k₁, v) =>
      rw [alookup]
      by_cases hk : k₁ = k
      · simp [hk]
      · simp [hk, ih]

theorem alookup_filter_self {κ β : Type} [DecidableEq κ] (k : κ) (l : List (κ × β)) :
    alookup k (l.filter (fun kv => decide (kv.1 ≠ k))) = none := by
  rw [alookup_eq_none_iff]
  intro p hp
  have := List.of_mem_filter hp
  simpa using this

theorem alookup_filter_ne {κ β : Type} [DecidableEq κ] {k p : κ} (l : List (κ × β))
    (h : k ≠ p) :
    alookup k (l.filter (fun kv => decide (kv.1 ≠ p))) = alookup k l := by
  induction l with
  | nil => rfl
  | cons x rest ih =>
    match x with
    | (k₁, v) =>
      rw [List.filter_cons]
      by_cases hk : k₁ = k
      · subst hk
        rw [if_pos (by simpa using h), alookup, if_pos rfl, alookup, if_pos rfl]
      · by_cases hkp : k₁ = p
        · subst hkp
          rw [if_neg (by simp), alookup, if_neg hk]
          exact ih
        · rw [if_pos (by simpa using hkp), alookup, if_neg hk, alookup, if_neg hk]
          exact ih

theorem alookup_append_of_none {κ β : Type} [DecidableEq κ] {k : κ}
    {l₁ : List (κ × β)} (l₂ : List (κ × β)) (h : alookup k l₁ = none) :
    alookup k (l₁ ++ l₂) = alookup k l₂ := by
  induction l₁ with
  | nil => rfl
  | cons x rest ih =>
    match x with
    | (k₁, v) =>
      rw [alookup] at h
      rw [List.cons_append, alookup]
      split at h
      · cases h
      · rename_i hk
        rw [if_neg hk]
        exact ih h

theorem alookup_none_of_subset {κ β : Type} [DecidableEq κ] {k : κ}
    {l₁ l₂ : List (κ × β)} (hsub : ∀ p ∈ l₁, p ∈ l₂) (h : alookup k l₂ = none) :
    alookup k l₁ = none := by
  rw [alookup_eq_none_iff]
  intro p hp
  exact (alookup_eq_none_iff k l₂).1 h p (hsub p hp)

theorem runAll_cons {α : Type} (f : FS → α → FS × List Action) (fs : FS)
    (a : α) (l : List α) :
    runAll f fs (a :: l) =
      ((runAll f (f fs a).1 l).1, (f fs a).2 ++ (runAll f (f fs a).1 l).2) := rfl

theorem runAll_fs_id {α : Type} (f : FS → α → FS × List Action)
    (h : ∀ s a, (f s a).1 = s) : ∀ (l : List α) (fs : FS), (runAll f fs l).1 = fs := by
  intro l
  induction l with
  | nil => intro fs; rfl
  | cons a rest ih =>
    intro fs
    rw [runAll_cons]
    simp only [h fs a]
    exact ih fs

theorem runAll_emit {α : Type} (f : FS → α → FS × List Action)
    (g : α → List Action) (fs : FS) :
    ∀ (l : List α), (∀ a ∈ l, f fs a = (fs, g a)) →
      runAll f fs l = (fs, (l.map g).flatten) := by
  intro l
  induction l with
  | nil => intro _; rfl
  | cons a rest ih =>
    intro h
    rw [runAll_cons, h a (List.mem_cons_self a rest)]
    have ihr := ih (fun b hb => h b (List.mem_cons_of_mem a hb))
    simp [ihr]

/-! ### Per-episode execution -/

theorem filter_disk_eq_nil {td : Name} {copies : List EpisodeCopy}
    (hall : ∀ c ∈ copies, c.disk ≠ td) :
    copies.filter (fun c => decide (c.disk = td)) = [] :=
  List.filter_eq_nil_iff.2 (fun c hc => by simp [hall c hc])

theorem filter_disk_ne_self {td : Name} {copies : List EpisodeCopy}
    (hall : ∀ c ∈ copies, c.disk ≠ td) :
    copies.filter (fun c => decide (c.disk ≠ td)) = copies :=
  List.filter_eq_self.2 (fun c hc => by simp [hall c hc])

theorem safe_move_aborts_on_collision (fs : FS) (src dd : Path) (dry : Bool)
    (hsrc : fs.pexists src = true)
    (hdst : fs.pexists (dd ++ [src.getLastD []]) = true) :
    safe_move fs src dd dry =
      OpRes.mk fs [Action.abortCollision (dd ++ [src.getLastD []])] false := by
  unfold safe_move
  rw [if_neg (by simp [hsrc]), if_pos hdst]

theorem processEpisode_collision (dry : Bool) (td : Name) (troot : Path) (fs : FS)
    (s e : Nat) (src : EpisodeCopy) (rest : List EpisodeCopy)
    (hall : ∀ c ∈ src :: rest, c.disk ≠ td)
    (hsrc : fs.pexists src.path = true)
    (hdst : fs.pexists (troot ++ src.rel_dir ++ [src.path.getLastD []]) = true) :
    processEpisode dry td troot fs ((s, e), src :: rest) =
      (fs, [Action.abortCollision (troot ++ src.rel_dir ++ [src.path.getLastD []]),
            Action.abortEpisode s e]) := by
  have h1 := filter_disk_eq_nil hall
  have h2 := filter_disk_ne_self hall
  simp only [processEpisode]
  rw [h1, h2, if_neg (by simp)]
  split
  · rename_i heq
    simp at heq
  · rename_i src₁ red₁ heq
    injection heq with hs hr
    subst hs; subst hr
    rw [safe_move_aborts_on_collision fs src.path (troot ++ src.rel_dir) dry hsrc hdst]
    simp

/-- C5: a collision on the safe transfer of an episode's canonical copy
aborts only that episode: the state is unchanged (nothing moved, nothing
deleted, the destination file intact), the collision and the abort are
reported, and the remaining episodes are processed exactly as before from
the same state. -/
theorem c5_collision_is_local (dry : Bool) (td : Name) (troot : Path) (fs : FS)
    (s e : Nat) (src : EpisodeCopy) (rest : List EpisodeCopy)
    (restEps : List (Slot × List EpisodeCopy))
    (hall : ∀ c ∈ src :: rest, c.disk ≠ td)
    (hsrc : fs.pexists src.path = true)
    (hdst : fs.pexists (troot ++ src.rel_dir ++ [src.path.getLastD []]) = true) :
    processEpisode dry td troot fs ((s, e), src :: rest) =
      (fs, [Action.abortCollision (troot ++ src.rel_dir ++ [src.path.getLastD []]),
            Action.abortEpisode s e]) ∧
    runAll (processEpisode dry td troot) fs (((s, e), src :: rest) :: restEps) =
      ((runAll (processEpisode dry td troot) fs restEps).1,
       [Action.abortCollision (troot ++ src.rel_dir ++ [src.path.getLastD []]),
        Action.abortEpisode s e] ++
         (runAll (processEpisode dry td troot) fs restEps).2) := by
  have h := processEpisode_collision dry td troot fs s e src rest hall hsrc hdst
  refine ⟨h, ?_⟩
  rw [runAll_cons, h]

/-! ### Move primitive semantics -/

theorem makedirs_files (fs : FS) (d : Path) : (fs.makedirs d).files = fs.files := rfl

theorem removeFile_files (fs : FS) (p : Path) :
    (FS.removeFile fs p).files = fs.files.filter (fun kv => decide (kv.1 ≠ p)) := rfl

theorem move_files (fs : FS) (src dst : Path) :
    (FS.move fs src dst).files =
      fs.files.filter (fun kv => decide (kv.1 ≠ src)) ++
        [(dst, (alookup src fs.files).getD 0)] := rfl

theorem isFile_false_alookup {fs : FS} {p : Path} (h : fs.pexists p = false) :
    alookup p fs.files = none := by
  simp only [FS.pexists, Bool.or_eq_false_iff] at h
  have h₁ := h.1
  simp only [FS.isFile] at h₁
  cases halook : alookup p fs.files with
  | none => rfl
  | some v => rw [halook] at h₁; simp at h₁

theorem force_move_overwrite (fs : FS) (src dd : Path) (sz : Int)
    (hsz : alookup src fs.files = some sz)
    (hne : src ≠ dd ++ [src.getLastD []]) :
    alookup (dd ++ [src.getLastD []]) (force_move fs src dd false).fs.files = some sz ∧
    alookup src (force_move fs src dd false).fs.files = none := by
  have hsrc : fs.pexists src = true := by
    simp [FS.pexists, FS.isFile, hsz]
  simp only [force_move]
  rw [if_neg (by simp [hsrc]), if_neg (by simp)]
  by_cases hp : (fs.makedirs dd).pexists (dd ++ [src.getLastD []]) = true
  · rw [if_pos hp]
    have hs2 : ((fs.makedirs dd).removeFile (dd ++ [src.getLastD []])).files =
        fs.files.filter (fun kv => decide (kv.1 ≠ dd ++ [src.getLastD []])) := rfl
    constructor
    · rw [move_files, hs2]
      have hnone : alookup (dd ++ [src.getLastD []])
          ((fs.files.filter (fun kv => decide (kv.1 ≠ dd ++ [src.getLastD []]))).filter
            (fun kv => decide (kv.1 ≠ src))) = none := by
        apply alookup_none_of_subset (fun p hp₂ => List.mem_of_mem_filter hp₂)
        exact alookup_filter_self _ _
      rw [alookup_append_of_none _ hnone, alookup_filter_ne _ hne, hsz]
      simp [alookup]
    · rw [move_files, hs2]
      rw [alookup_append_of_none _ (alookup_filter_self _ _), alookup,
        if_neg (Ne.symm hne), alookup]
  · rw [if_neg hp]
    rw [Bool.not_eq_true] at hp
    have hdnone : alookup (dd ++ [src.getLastD []]) (fs.makedirs dd).files = none :=
      isFile_false_alookup hp
    constructor
    · rw [move_files]
      have hnone : alookup (dd ++ [src.getLastD []])
          ((fs.makedirs dd).files.filter (fun kv => decide (kv.1 ≠ src))) = none := by
        apply alookup_none_of_subset (fun p hp₂ => List.mem_of_mem_filter hp₂)
        exact hdnone
      rw [alookup_append_of_none _ hnone, makedirs_files, hsz]
      simp [alookup]
    · rw [move_files]
      rw [alookup_append_of_none _ (alookup_filter_self _ _), alookup,
        if_neg (Ne.symm hne), alookup]

/-! ### Dry-run plans -/

theorem safe_move_dry_ok (fs : FS) (src dd : Path)
    (hsrc : fs.pexists src = true)
    (hdst : fs.pexists (dd ++ [src.getLastD []]) = false) :
    safe_move fs src dd true =
      OpRes.mk fs [Action.moveFile src (dd ++ [src.getLastD []])] true := by
  unfold safe_move
  rw [if_neg (by simp [hsrc]), if_neg (by simp only [hdst]; decide), if_pos rfl]

theorem force_move_dry (fs : FS) (src dd : Path) (hsrc : fs.pexists src = true) :
    force_move fs src dd true =
      OpRes.mk fs [Action.mergeFile src (dd ++ [src.getLastD []])] true := by
  unfold force_move
  rw [if_neg (by simp [hsrc]), if_pos rfl]

theorem safe_delete_dry (fs : FS) (p : Path) :
    safe_delete fs p true = OpRes.mk fs [Action.deleteFile p] true := by
  unfold safe_delete
  rw [if_pos rfl]

theorem flatten_singleton_map {α β : Type} (g : α → β) (l : List α) :
    (l.map (fun x => [g x])).flatten = l.map g := by
  induction l with
  | nil => rfl
  | cons a rest ih => simp [ih]

theorem deleteCopy_dry (fs : FS) (c : EpisodeCopy) :
    deleteCopy true fs c =
      (fs, Action.deleteFile c.path ::
        c.companions.map (fun comp => Action.deleteFile comp.path)) := by
  simp only [deleteCopy, safe_delete_dry]
  rw [runAll_emit _ (fun comp => [Action.deleteFile comp.path]) fs c.companions
    (fun a _ => rfl)]
  simp [flatten_singleton_map]

theorem processEpisode_dry_plan (td : Name) (troot : Path) (fs : FS)
    (s e : Nat) (src : EpisodeCopy) (redundant : List EpisodeCopy)
    (hall : ∀ c ∈ src :: redundant, c.disk ≠ td)
    (hsrc : fs.pexists src.path = true)
    (hdst : fs.pexists (troot ++ src.rel_dir ++ [src.path.getLastD []]) = false)
    (hcomp : ∀ c ∈ src.companions, fs.pexists c.path = true) :
    processEpisode true td troot fs ((s, e), src :: redundant) =
      (fs, Action.moveFile src.path (troot ++ src.rel_dir ++ [src.path.getLastD []]) ::
        (src.companions.map (fun c =>
          Action.mergeFile c.path (troot ++ src.rel_dir ++ [c.path.getLastD []])) ++
         (redundant.map (fun r => Action.deleteFile r.path ::
           r.companions.map (fun comp => Action.deleteFile comp.path))).flatten)) := by
  have h1 := filter_disk_eq_nil hall
  have h2 := filter_disk_ne_self hall
  simp only [processEpisode]
  rw [h1, h2, if_neg (by simp)]
  split
  · rename_i heq
    simp at heq
  · rename_i src₁ red₁ heq
    injection heq with hs hr
    subst hs; subst hr
    rw [safe_move_dry_ok fs src.path (troot ++ src.rel_dir) hsrc hdst]
    rw [runAll_emit _
      (fun c => [Action.mergeFile c.path (troot ++ src.rel_dir ++ [c.path.getLastD []])])
      fs src.companions
      (fun c hc => by rw [force_move_dry fs c.path (troot ++ src.rel_dir) (hcomp c hc)])]
    rw [runAll_emit _
      (fun r => Action.deleteFile r.path ::
        r.companions.map (fun comp => Action.deleteFile comp.path))
      fs redundant (fun r _ => deleteCopy_dry fs r)]
    simp [flatten_singleton_map]

/-- C3 (amended): for a slot with no copy on the target root, the
first-encountered copy is transferred by `safe_move`, which never overwrites
(an existing same-named destination entry aborts it); each of its Companions
is transferred by `force_move`, which does overwrite an existing same-named
destination file; and every further redundant copy on other roots is deleted
together with its Companions.  The planned per-episode trace is exactly: the
copy's move, the companions' merges, the redundant copies' deletions. -/
theorem c3_transfer_semantics :
    (∀ (fs : FS) (src dd : Path) (dry : Bool),
      fs.pexists src = true → fs.pexists (dd ++ [src.getLastD []]) = true →
      safe_move fs src dd dry =
        OpRes.mk fs [Action.abortCollision (dd ++ [src.getLastD []])] false) ∧
    (∀ (fs : FS) (src dd : Path) (sz : Int),
      alookup src fs.files = some sz → src ≠ dd ++ [src.getLastD []] →
      alookup (dd ++ [src.getLastD []]) (force_move fs src dd false).fs.files = some sz ∧
      alookup src (force_move fs src dd false).fs.files = none) ∧
    (∀ (td : Name) (troot : Path) (fs : FS) (s e : Nat) (src : EpisodeCopy)
      (redundant : List EpisodeCopy),
      (∀ c ∈ src :: redundant, c.disk ≠ td) →
      fs.pexists src.path = true →
      fs.pexists (troot ++ src.rel_dir ++ [src.path.getLastD []]) = false →
      (∀ c ∈ src.companions, fs.pexists c.path = true) →
      processEpisode true td troot fs ((s, e), src :: redundant) =
        (fs, Action.moveFile src.path (troot ++ src.rel_dir ++ [src.path.getLastD []]) ::
          (src.companions.map (fun c =>
            Action.mergeFile c.path (troot ++ src.rel_dir ++ [c.path.getLastD []])) ++
           (redundant.map (fun r => Action.deleteFile r.path ::
             r.companions.map (fun comp => Action.deleteFile comp.path))).flatten))) :=
  ⟨fun fs src dd dry h₁ h₂ => safe_move_aborts_on_collision fs src dd dry h₁ h₂,
   fun fs src dd sz h₁ h₂ => force_move_overwrite fs src dd sz h₁ h₂,
   fun td troot fs s e src red h₁ h₂ h₃ h₄ =>
     processEpisode_dry_plan td troot fs s e src red h₁ h₂ h₃ h₄⟩

/-! ### Simulate mode never mutates -/

theorem safe_move_dry_fs (fs : FS) (src dd : Path) : (safe_move fs src dd true).fs = fs := by
  by_cases h1 : fs.pexists src = true
  · unfold safe_move
    rw [if_neg (by simp [h1])]
    by_cases h2 : fs.pexists (dd ++ [src.getLastD []]) = true
    · rw [if_pos h2]
    · rw [if_neg h2, if_pos rfl]
  · unfold safe_move
    rw [if_pos h1]

theorem force_move_dry_fs (fs : FS) (src dd : Path) : (force_move fs src dd true).fs = fs := by
  by_cases h1 : fs.pexists src = true
  · unfold force_move
    rw [if_neg (by simp [h1]), if_pos rfl]
  · unfold force_move
    rw [if_pos h1]

theorem safe_delete_dry_fs (fs : FS) (p : Path) : (safe_delete fs p true).fs = fs := by
  unfold safe_delete
  rw [if_pos rfl]

theorem deleteCopy_dry_fs (fs : FS) (c : EpisodeCopy) : (deleteCopy true fs c).1 = fs := by
  rw [deleteCopy_dry]

theorem goChildren_fs_id (step : FS → Path → FS × List Action)
    (h : ∀ s c, (step s c).1 = s) :
    ∀ (l : List Path) (fs : FS), (goChildren step fs l).1 = fs := by
  intro l
  induction l with
  | nil => intro fs; rfl
  | cons c rest ih =>
    intro fs
    show (goChildren step (step fs c).1 rest).1 = fs
    rw [ih, h]

theorem cleanupJunkStep_dry_fs (d : Path) (s : FS) (fn : Name) :
    ((if isJunk fn then
        (let r := safe_delete s (d ++ [fn]) true; (r.fs, r.acts))
      else (s, [])) : FS × List Action).1 = s := by
  split
  · exact safe_delete_dry_fs s (d ++ [fn])
  · rfl

theorem cleanupFlatGo_dry_fs : ∀ (fuel : Nat) (fs : FS) (d : Path),
    (cleanupFlatGo fuel true fs d).1 = fs := by
  intro fuel
  induction fuel with
  | zero => intro fs d; rfl
  | succ n ih =>
    intro fs d
    simp only [cleanupFlatGo]
    rw [goChildren_fs_id _ (fun s c => ih s c)]
    rw [runAll_fs_id _ (fun s fn => cleanupJunkStep_dry_fs d s fn)]
    split
    · rw [if_pos trivial]
    · rfl

theorem cleanup_folder_tree_dry_fs (fs : FS) (p : Path) :
    (cleanup_folder_tree fs p true).1 = fs := by
  unfold cleanup_folder_tree
  split
  · rfl
  · exact cleanupFlatGo_dry_fs _ fs p

theorem forceMoveCompStep_dry_fs (dd : Path) (s : FS) (c : Companion) :
    ((let r := force_move s c.path dd true; (r.fs, r.acts)) : FS × List Action).1 = s :=
  force_move_dry_fs s c.path dd

theorem processEpisode_dry_fs (td : Name) (troot : Path) :
    ∀ (fs : FS) (ep : Slot × List EpisodeCopy),
      (processEpisode true td troot fs ep).1 = fs := by
  intro fs ep
  simp only [processEpisode]
  split
  · exact runAll_fs_id _ (fun s c => deleteCopy_dry_fs s c) _ fs
  · split
    · rfl
    · split
      · rw [runAll_fs_id _ (fun s c => deleteCopy_dry_fs s c),
          runAll_fs_id _ (fun s c => forceMoveCompStep_dry_fs _ s c),
          safe_move_dry_fs]
      · rw [safe_move_dry_fs]

theorem artifactStep_dry_fs (td : Name) (troot : Path) (s : FS) (art : Artifact) :
    ((if decide (art.disk ≠ td) then
        (let r := force_move s art.path (troot ++ art.rel_dir) true; (r.fs, r.acts))
      else (s, [])) : FS × List Action).1 = s := by
  split
  · exact force_move_dry_fs s art.path (troot ++ art.rel_dir)
  · rfl

theorem cleanupDiskStep_dry_fs (td : Name) (disks : List (Name × DiskStat))
    (s : FS) (dk : Name) :
    ((if decide (dk = td) then (s, [])
      else cleanup_folder_tree s [dk, realFolderOf disks dk] true) :
        FS × List Action).1 = s := by
  split
  · rfl
  · exact cleanup_folder_tree_dry_fs s _

theorem processSeries_false_fs (fs : FS) (k : Name) (data : SeriesData) :
    (processSeries false fs k data).fs = fs := by
  simp only [processSeries, Bool.not_false]
  split
  · rfl
  · split
    · rfl
    · split
      · rfl
      · rw [runAll_fs_id _ (fun s dk => cleanupDiskStep_dry_fs _ _ s dk),
          runAll_fs_id _ (fun s art => artifactStep_dry_fs _ _ s art),
          runAll_fs_id _ (fun s ep => processEpisode_dry_fs _ _ s ep)]

theorem processList_false_fs (fs : FS) :
    ∀ (l : List (Name × SeriesData)), (processList false fs l).fs = fs := by
  intro l
  induction l generalizing fs with
  | nil => rfl
  | cons kv rest ih =>
    show (processList false (processSeries false fs kv.1 kv.2).fs rest).fs = fs
    rw [ih, processSeries_false_fs]

/-! ### The target decision is mode-independent until the first mutation -/

theorem processSeries_decisions_mode (execute : Bool) (fs : FS) (k : Name)
    (data : SeriesData) :
    (processSeries execute fs k data).decisions =
      (processSeries false fs k data).decisions := by
  simp only [processSeries]
  split
  · rfl
  · split
    · rfl
    · split
      · rfl
      · rfl

theorem processSeries_decisions_nil_fs (execute : Bool) (fs : FS) (k : Name)
    (data : SeriesData)
    (h : (processSeries execute fs k data).decisions = []) :
    (processSeries execute fs k data).fs = fs := by
  simp only [processSeries] at h ⊢
  split at h
  · rename_i h1
    rw [if_pos h1]
  · rename_i h1
    split at h
    · rename_i h2
      rw [if_neg h1, if_pos h2]
    · rename_i h2
      split at h
      · simp at h
      · simp at h

theorem processList_decisions_head (fs : FS) :
    ∀ (l : List (Name × SeriesData)),
      (processList true fs l).decisions.head? =
        (processList false fs l).decisions.head? := by
  intro l
  induction l generalizing fs with
  | nil => rfl
  | cons kv rest ih =>
    show ((processSeries true fs kv.1 kv.2).decisions ++
        (processList true (processSeries true fs kv.1 kv.2).fs rest).decisions).head? =
      ((processSeries false fs kv.1 kv.2).decisions ++
        (processList false (processSeries false fs kv.1 kv.2).fs rest).decisions).head?
    rw [processSeries_decisions_mode true fs kv.1 kv.2]
    match hdec : (processSeries false fs kv.1 kv.2).decisions with
    | [] =>
      have hT : (processSeries true fs kv.1 kv.2).decisions = [] :=
        (processSeries_decisions_mode true fs kv.1 kv.2).trans hdec
      have hfsT := processSeries_decisions_nil_fs true fs kv.1 kv.2 hT
      have hfsF := processSeries_decisions_nil_fs false fs kv.1 kv.2 hdec
      rw [hfsT, hfsF]
      simpa using ih fs
    | x :: xs => simp

/-- C6 (amended): against the identical snapshot, simulate mode performs no
filesystem mutation at all, and both modes compute the identical target-disk
decision for the first series that reaches target selection.  (Later
decisions, and the count and order of the logged actions, can diverge,
because apply-mode moves change the live free-space and directory contents
the subsequent checks consult.) -/
theorem c6_simulate_refinement :
    (∀ (fs : FS) (library : List (Name × SeriesData)),
      (processConsolidation false fs library).fs = fs) ∧
    (∀ (fs : FS) (library : List (Name × SeriesData)),
      (processConsolidation true fs library).decisions.head? =
        (processConsolidation false fs library).decisions.head?) :=
  ⟨fun fs library => processList_false_fs fs (sortAscKey library),
   fun fs library => processList_decisions_head fs (sortAscKey library)⟩

/-- C6, counterexample: on the concrete two-series snapshot the two modes
disagree both on the recorded target decisions and on the logged actions:
apply-mode's first move consumes `rootB`'s free space, so the second series
is skipped for space in apply mode but assigned to `rootB` in simulate mode. -/
theorem c6_counterexample :
    ¬((processConsolidation false fsTwoSeries libTwoSeries).decisions =
        (processConsolidation true fsTwoSeries libTwoSeries).decisions ∧
      (processConsolidation false fsTwoSeries libTwoSeries).actions =
        (processConsolidation true fsTwoSeries libTwoSeries).actions) := by
  intro h
  exact absurd h.1 (by decide)

/-! ### The Cleaner on directory trees -/

theorem tree_ind (P : DirTree → Prop)
    (h : ∀ files subs, (∀ s ∈ subs, P s) → P (.node files subs)) : ∀ t, P t
  | .node files subs => h files subs (fun s hs => tree_ind P h s)
termination_by t => sizeOf t
decreasing_by
  have := List.sizeOf_lt_of_mem hs
  simp only [DirTree.node.sizeOf_spec]
  omega

theorem allJunkSubsB_iff : ∀ (l : List DirTree),
    allJunkSubsB l = true ↔ ∀ s ∈ l, allJunkB s = true := by
  intro l
  induction l with
  | nil => simp [allJunkSubsB]
  | cons t ts ih =>
    rw [allJunkSubsB, Bool.and_eq_true, ih]
    constructor
    · intro hp s hs
      rcases List.mem_cons.1 hs with rfl | hs₂
      · exact hp.1
      · exact hp.2 s hs₂
    · intro hp
      exact ⟨hp t (List.mem_cons_self t ts),
        fun s hs => hp s (List.mem_cons_of_mem t hs)⟩

theorem cleanupSubs_cons_none {dry : Bool} {t : DirTree} {ts : List DirTree}
    (h : (cleanupTree dry t).1 = none) :
    (cleanupSubs dry (t :: ts)).1 = (cleanupSubs dry ts).1 := by
  rw [cleanupSubs]
  simp only [h]

theorem cleanupSubs_cons_some {dry : Bool} {t t₁ : DirTree} {ts : List DirTree}
    (h : (cleanupTree dry t).1 = some t₁) :
    (cleanupSubs dry (t :: ts)).1 = t₁ :: (cleanupSubs dry ts).1 := by
  rw [cleanupSubs]
  simp only [h]

theorem cleanupSubs_nil_iff : ∀ (subs : List DirTree),
    (cleanupSubs false subs).1 = [] ↔
      ∀ s ∈ subs, (cleanupTree false s).1 = none := by
  intro subs
  induction subs with
  | nil => simp [cleanupSubs]
  | cons t ts ih =>
    match hr : (cleanupTree false t).1 with
    | none =>
      rw [cleanupSubs_cons_none hr, ih]
      constructor
      · intro hp s hs
        rcases List.mem_cons.1 hs with rfl | hs₂
        · exact hr
        · exact hp s hs₂
      · intro hp s hs
        exact hp s (List.mem_cons_of_mem t hs)
    | some t₁ =>
      rw [cleanupSubs_cons_some hr]
      constructor
      · intro hp
        cases hp
      · intro hp
        have hc := hp t (List.mem_cons_self t ts)
        rw [hr] at hc
        cases hc

theorem cleanupTree_removed_allJunk :
    ∀ t, (cleanupTree false t).1 = none → allJunkB t = true := by
  refine tree_ind _ ?_
  intro files subs ih h
  simp only [cleanupTree] at h
  rw [if_neg (by decide)] at h
  split at h
  · rename_i hcond
    rw [Bool.and_eq_true] at hcond
    rw [allJunkB, Bool.and_eq_true]
    refine ⟨hcond.1, ?_⟩
    rw [allJunkSubsB_iff]
    intro s hs
    exact ih s hs ((cleanupSubs_nil_iff subs).1 (List.isEmpty_iff.1 hcond.2) s hs)
  · cases h

theorem cleanupTree_removal_condition (files : List Name) (subs : List DirTree) :
    (cleanupTree false (DirTree.node files subs)).1 = none ↔
      (files.all (fun f => isJunk f) = true ∧ (cleanupSubs false subs).1 = []) := by
  simp only [cleanupTree]
  rw [if_neg (by decide)]
  split
  · rename_i hcond
    rw [Bool.and_eq_true, List.isEmpty_iff] at hcond
    simp [hcond.1, hcond.2]
  · rename_i hcond
    rw [Bool.and_eq_true] at hcond
    simp only
    constructor
    · intro hp; cases hp
    · intro hp
      exact absurd ⟨hp.1, List.isEmpty_iff.2 hp.2⟩ hcond

theorem cleanupTree_surviving_files (files : List Name) (subs : List DirTree)
    (h : (cleanupTree false (DirTree.node files subs)).1 ≠ none) :
    (cleanupTree false (DirTree.node files subs)).1 =
      some (DirTree.node (files.filter (fun f => ¬ isJunk f))
        (cleanupSubs false subs).1) := by
  simp only [cleanupTree] at h ⊢
  rw [if_neg (by decide)] at h ⊢
  split
  · rename_i hcond
    rw [if_pos hcond] at h
    exact absurd rfl h
  · rfl

theorem cleanupTree_dry_id : ∀ t, (cleanupTree true t).1 = some t := by
  intro t
  match t with
  | .node files subs =>
    simp only [cleanupTree]
    rw [if_pos trivial]

/-- C4: the cleaner never removes a directory holding a non-junk file — a
removed tree was junk-only throughout; a directory is removed exactly when,
after junk removal, it has no files and no surviving child directory; in a
surviving directory the junk files (lowercased name in the junk set) are
deleted unconditionally; and in simulate mode the tree is left exactly as it
was, so an only-simulated junk deletion never enables an actual removal. -/
theorem c4_cleaner_safety :
    (∀ t, (cleanupTree false t).1 = none → allJunkB t = true) ∧
    (∀ (files : List Name) (subs : List DirTree),
      (cleanupTree false (DirTree.node files subs)).1 = none ↔
        (files.all (fun f => isJunk f) = true ∧ (cleanupSubs false subs).1 = [])) ∧
    (∀ (files : List Name) (subs : List DirTree),
      (cleanupTree false (DirTree.node files subs)).1 ≠ none →
      (cleanupTree false (DirTree.node files subs)).1 =
        some (DirTree.node (files.filter (fun f => ¬ isJunk f))
          (cleanupSubs false subs).1)) ∧
    (∀ t, (cleanupTree true t).1 = some t) :=
  ⟨cleanupTree_removed_allJunk, cleanupTree_removal_condition,
   cleanupTree_surviving_files, cleanupTree_dry_id⟩

theorem c4_witness :
    allJunkB (DirTree.node [".plexmatch".data]
      [DirTree.node ["Thumbs.db".data] []]) = true ∧
    (cleanupTree false (DirTree.node ["movie.mkv".data, ".DS_Store".data] [])).1 =
      some (DirTree.node ["movie.mkv".data] []) := by
  constructor
  · exact c4_cleaner_safety.1 _ (by simp [cleanupTree, cleanupSubs, isJunk, JUNK_FILES])
  · have h := c4_cleaner_safety.2.2.1 ["movie.mkv".data, ".DS_Store".data] []
      (by simp [cleanupTree, cleanupSubs, isJunk, JUNK_FILES])
    rw [h]
    simp [cleanupSubs, isJunk, JUNK_FILES]

/-! ### Character facts for `normalize_name` -/

theorem char_eq_iff_toNat (a b : Char) : a = b ↔ a.toNat = b.toNat :=
  ⟨fun h => h ▸ rfl, fun h => Char.eq_of_val_eq (UInt32.toNat.inj h)⟩

theorem toNat_ofNat_valid (n : Nat) (h : n.isValidChar) : (Char.ofNat n).toNat = n := by
  rw [Char.ofNat, dif_pos h]
  rfl

theorem toLower_eq_self_of_not_upper {c : Char}
    (h : ¬(c.toNat ≥ 65 ∧ c.toNat ≤ 90)) : Char.toLower c = c := by
  unfold Char.toLower
  exact if_neg h

theorem toNat_toLower (c : Char) :
    (Char.toLower c).toNat =
      if c.toNat ≥ 65 ∧ c.toNat ≤ 90 then c.toNat + 32 else c.toNat := by
  by_cases h : c.toNat ≥ 65 ∧ c.toNat ≤ 90
  · rw [if_pos h]
    unfold Char.toLower
    rw [if_pos h, toNat_ofNat_valid _ (by left; omega)]
  · rw [if_neg h, toLower_eq_self_of_not_upper h]

theorem pySpace_iff_toNat (c : Char) :
    pySpace c = true ↔
      (c.toNat = 32 ∨ c.toNat = 9 ∨ c.toNat = 10 ∨ c.toNat = 13 ∨
       c.toNat = 11 ∨ c.toNat = 12) := by
  simp only [pySpace, Bool.or_eq_true, decide_eq_true_eq]
  rw [char_eq_iff_toNat c ' ', char_eq_iff_toNat c '\t', char_eq_iff_toNat c '\n',
    char_eq_iff_toNat c '\r', char_eq_iff_toNat c '\x0b', char_eq_iff_toNat c '\x0c',
    show (' ').toNat = 32 from by decide, show ('\t').toNat = 9 from by decide,
    show ('\n').toNat = 10 from by decide, show ('\r').toNat = 13 from by decide,
    show ('\x0b').toNat = 11 from by decide, show ('\x0c').toNat = 12 from by decide]
  tauto

theorem pySpace_toLower (c : Char) : pySpace (Char.toLower c) = pySpace c := by
  by_cases h : c.toNat ≥ 65 ∧ c.toNat ≤ 90
  · have h1 : pySpace (Char.toLower c) = false := by
      rw [Bool.eq_false_iff]
      intro hx
      have := (pySpace_iff_toNat _).1 hx
      rw [toNat_toLower, if_pos h] at this
      omega
    have h2 : pySpace c = false := by
      rw [Bool.eq_false_iff]
      intro hx
      have := (pySpace_iff_toNat _).1 hx
      omega
    rw [h1, h2]
  · rw [toLower_eq_self_of_not_upper h]

theorem toLower_idem (c : Char) : Char.toLower (Char.toLower c) = Char.toLower c := by
  by_cases h : c.toNat ≥ 65 ∧ c.toNat ≤ 90
  · apply toLower_eq_self_of_not_upper
    rw [toNat_toLower, if_pos h]
    omega
  · rw [toLower_eq_self_of_not_upper h]
    exact toLower_eq_self_of_not_upper h

theorem noSep_toLower {c : Char} (h : c ≠ '.' ∧ c ≠ '_') :
    Char.toLower c ≠ '.' ∧ Char.toLower c ≠ '_' := by
  by_cases hu : c.toNat ≥ 65 ∧ c.toNat ≤ 90
  · constructor
    · intro hx
      rw [char_eq_iff_toNat, toNat_toLower, if_pos hu,
        show ('.').toNat = 46 from by decide] at hx
      omega
    · intro hx
      rw [char_eq_iff_toNat, toNat_toLower, if_pos hu,
        show ('_').toNat = 95 from by decide] at hx
      omega
  · rw [toLower_eq_self_of_not_upper hu]
    exact h

theorem noSep_sepToSpace (c : Char) : sepToSpace c ≠ '.' ∧ sepToSpace c ≠ '_' := by
  unfold sepToSpace
  split
  · exact ⟨by decide, by decide⟩
  · rename_i h
    rw [Bool.or_eq_true, not_or] at h
    simp only [decide_eq_true_eq] at h
    exact ⟨fun hx => h.1 (by simp [hx]), fun hx => h.2 (by simp [hx])⟩

theorem sepToSpace_eq_self_of_space {c : Char} (h : pySpace c = true) :
    sepToSpace c = c := by
  have ht := (pySpace_iff_toNat c).1 h
  unfold sepToSpace
  rw [if_neg]
  intro hx
  rw [Bool.or_eq_true] at hx
  rcases hx with hx | hx
  · rw [decide_eq_true_eq, char_eq_iff_toNat,
      show ('.').toNat = 46 from by decide] at hx
    rcases ht with ht | ht | ht | ht | ht | ht <;> omega
  · rw [decide_eq_true_eq, char_eq_iff_toNat,
      show ('_').toNat = 95 from by decide] at hx
    rcases ht with ht | ht | ht | ht | ht | ht <;> omega

theorem sepToSpace_eq_self_of_noSep {c : Char} (h : c ≠ '.' ∧ c ≠ '_') :
    sepToSpace c = c := by
  unfold sepToSpace
  rw [if_neg]
  intro hx
  rw [Bool.or_eq_true] at hx
  rcases hx with hx | hx
  · exact h.1 (by simpa using hx)
  · exact h.2 (by simpa using hx)

/-! ### Whitespace collapsing -/

theorem mem_of_getLast?_eq {α : Type} {l : List α} {a : α}
    (h : l.getLast? = some a) : a ∈ l := by
  cases l with
  | nil => cases h
  | cons x xs =>
    rw [List.getLast?_eq_getLast _ (by simp)] at h
    injection h with h₁
    exact h₁ ▸ List.getLast_mem _

theorem collapseGo_mem : ∀ (l : Name) (b : Bool) (c : Char),
    c ∈ collapseGo b l → c = ' ' ∨ c ∈ l := by
  intro l
  induction l with
  | nil => intro b c h; cases h
  | cons d rest ih =>
    intro b c h
    rw [collapseGo] at h
    by_cases hd : pySpace d = true
    · rw [if_pos hd] at h
      cases b with
      | true =>
        rcases ih true c h with h₁ | h₁
        · exact Or.inl h₁
        · exact Or.inr (List.mem_cons_of_mem d h₁)
      | false =>
        rcases List.mem_cons.1 h with rfl | h₁
        · exact Or.inl rfl
        · rcases ih true c h₁ with h₂ | h₂
          · exact Or.inl h₂
          · exact Or.inr (List.mem_cons_of_mem d h₂)
    · rw [if_neg hd] at h
      rcases List.mem_cons.1 h with rfl | h₁
      · exact Or.inr (List.mem_cons_self c rest)
      · rcases ih false c h₁ with h₂ | h₂
        · exact Or.inl h₂
        · exact Or.inr (List.mem_cons_of_mem d h₂)

theorem collapseGo_space_char : ∀ (l : Name) (b : Bool) (c : Char),
    c ∈ collapseGo b l → pySpace c = true → c = ' ' := by
  intro l
  induction l with
  | nil => intro b c h; cases h
  | cons d rest ih =>
    intro b c h hsp
    rw [collapseGo] at h
    by_cases hd : pySpace d = true
    · rw [if_pos hd] at h
      cases b with
      | true => exact ih true c h hsp
      | false =>
        rcases List.mem_cons.1 h with rfl | h₁
        · rfl
        · exact ih true c h₁ hsp
    · rw [if_neg hd] at h
      rcases List.mem_cons.1 h with rfl | h₁
      · exact absurd hsp hd
      · exact ih false c h₁ hsp

theorem collapseGo_true_head : ∀ (l : Name) (c : Char),
    (collapseGo true l).head? = some c → pySpace c = false := by
  intro l
  induction l with
  | nil => intro c h; cases h
  | cons d rest ih =>
    intro c h
    rw [collapseGo] at h
    by_cases hd : pySpace d = true
    · rw [if_pos hd] at h
      exact ih c h
    · rw [if_neg hd] at h
      injection h with h₁
      rw [← h₁, Bool.eq_false_iff]
      exact hd

theorem collapseGo_chain : ∀ (l : Name) (b : Bool),
    List.Chain' (fun a c => ¬(pySpace a = true ∧ pySpace c = true))
      (collapseGo b l) := by
  intro l
  induction l with
  | nil => intro b; exact List.chain'_nil
  | cons d rest ih =>
    intro b
    rw [collapseGo]
    by_cases hd : pySpace d = true
    · rw [if_pos hd]
      cases b with
      | true =>
        rw [if_pos rfl]
        exact ih true
      | false =>
        rw [if_neg (by decide)]
        rw [List.chain'_cons']
        refine ⟨?_, ih true⟩
        intro y hy
        have := collapseGo_true_head rest y hy
        intro hcon
        rw [this] at hcon
        cases hcon.2
    · rw [if_neg hd]
      rw [List.chain'_cons']
      refine ⟨?_, ih false⟩
      intro y hy hcon
      exact hd hcon.1

theorem collapseGo_false_head (l : Name) (c : Char) (h : l.head? = some c)
    (hc : pySpace c = false) : (collapseGo false l).head? = some c := by
  cases l with
  | nil => cases h
  | cons d rest =>
    injection h with h₁
    subst h₁
    rw [collapseGo, if_neg (by rw [hc]; intro hx; cases hx)]
    rfl

theorem collapseGo_eq_nil_all_space : ∀ (l : Name) (b : Bool),
    collapseGo b l = [] → ∀ c ∈ l, pySpace c = true := by
  intro l
  induction l with
  | nil => intro b h c hc; cases hc
  | cons d rest ih =>
    intro b h c hc
    rw [collapseGo] at h
    by_cases hd : pySpace d = true
    · rw [if_pos hd] at h
      cases b with
      | true =>
        rcases List.mem_cons.1 hc with rfl | h₁
        · exact hd
        · exact ih true h c h₁
      | false => cases h
    · rw [if_neg hd] at h
      cases h

theorem collapseGo_last : ∀ (l : Name) (b : Bool),
    (∀ c, l.getLast? = some c → pySpace c = false) →
    ∀ c, (collapseGo b l).getLast? = some c → pySpace c = false := by
  intro l
  induction l with
  | nil => intro b hl c h; cases h
  | cons d rest ih =>
    intro b hl c h
    rw [collapseGo] at h
    match hrest : rest with
    | [] =>
      have hd0 : pySpace d = false := hl d rfl
      rw [if_neg (by rw [hd0]; intro hx; cases hx)] at h
      rw [collapseGo] at h
      injection h with h₁
      rw [← h₁]
      exact hd0
    | r :: rs =>
      have hl₂ : ∀ c, (r :: rs).getLast? = some c → pySpace c = false := by
        intro c hc
        exact hl c (by rw [List.getLast?_cons_cons]; exact hc)
      by_cases hd : pySpace d = true
      · rw [if_pos hd] at h
        cases b with
        | true =>
          rw [if_pos rfl] at h
          exact ih true hl₂ c h
        | false =>
          rw [if_neg (by decide)] at h
          match hx : collapseGo true (r :: rs) with
          | [] =>
            have hall := collapseGo_eq_nil_all_space (r :: rs) true hx
            obtain ⟨e, he⟩ : ∃ e, (r :: rs).getLast? = some e := by
              rw [List.getLast?_eq_getLast _ (by simp)]
              exact ⟨_, rfl⟩
            have := hl₂ e he
            have hmem := mem_of_getLast?_eq he
            rw [hall e hmem] at this
            cases this
          | y :: ys =>
            rw [hx] at h
            rw [List.getLast?_cons_cons] at h
            rw [← hx] at h
            exact ih true hl₂ c h
      · rw [if_neg hd] at h
        match hx : collapseGo false (r :: rs) with
        | [] =>
          have hall := collapseGo_eq_nil_all_space (r :: rs) false hx
          obtain ⟨e, he⟩ : ∃ e, (r :: rs).getLast? = some e := by
            rw [List.getLast?_eq_getLast _ (by simp)]
            exact ⟨_, rfl⟩
          have := hl₂ e he
          have hmem := mem_of_getLast?_eq he
          rw [hall e hmem] at this
          cases this
        | y :: ys =>
          rw [hx] at h
          rw [List.getLast?_cons_cons] at h
          rw [← hx] at h
          exact ih false hl₂ c h

theorem collapseGo_eq_self : ∀ (l : Name),
    (∀ c ∈ l, pySpace c = true → c = ' ') →
    List.Chain' (fun a c => ¬(pySpace a = true ∧ pySpace c = true)) l →
    (collapseGo false l = l ∧
     ((∀ c, l.head? = some c → pySpace c = false) → collapseGo true l = l)) := by
  intro l
  induction l with
  | nil => intro _ _; exact ⟨rfl, fun _ => rfl⟩
  | cons d rest ih =>
    intro hsp hch
    have hch₂ := (List.chain'_cons'.1 hch).2
    have hrel := (List.chain'_cons'.1 hch).1
    have hsp₂ : ∀ c ∈ rest, pySpace c = true → c = ' ' :=
      fun c hc => hsp c (List.mem_cons_of_mem d hc)
    have ihr := ih hsp₂ hch₂
    by_cases hd : pySpace d = true
    · have hd' : d = ' ' := hsp d (List.mem_cons_self d rest) hd
      have hresthead : ∀ c, rest.head? = some c → pySpace c = false := by
        intro c hc
        have := hrel c hc
        rw [Bool.eq_false_iff]
        intro hcsp
        exact this ⟨hd, hcsp⟩
      constructor
      · rw [collapseGo, if_pos hd, if_neg (by decide), ihr.2 hresthead, hd']
      · intro hhead
        have := hhead d rfl
        rw [hd] at this
        cases this
    · constructor
      · rw [collapseGo, if_neg hd, ihr.1]
      · intro _
        rw [collapseGo, if_neg hd, ihr.1]

/-! ### Stripping -/

theorem dropWhile_eq_self_of_head (p : Char → Bool) (l : Name)
    (h : ∀ c, l.head? = some c → p c = false) : l.dropWhile p = l := by
  cases l with
  | nil => rfl
  | cons c rest =>
    rw [List.dropWhile_cons, if_neg (by rw [h c rfl]; intro hx; cases hx)]

theorem pyStrip_eq_self (l : Name)
    (hh : ∀ c, l.head? = some c → pySpace c = false)
    (hl : ∀ c, l.getLast? = some c → pySpace c = false) : pyStrip l = l := by
  unfold pyStrip
  rw [dropWhile_eq_self_of_head _ _ hh]
  rw [dropWhile_eq_self_of_head _ _ (by
    intro c hc
    rw [List.head?_reverse] at hc
    exact hl c hc)]
  exact List.reverse_reverse l

theorem mem_pyStrip {c : Char} {l : Name} (h : c ∈ pyStrip l) : c ∈ l := by
  unfold pyStrip at h
  rw [List.mem_reverse] at h
  have h₂ := List.Sublist.mem h (List.dropWhile_sublist _)
  rw [List.mem_reverse] at h₂
  exact List.Sublist.mem h₂ (List.dropWhile_sublist _)

theorem pyStrip_last (l : Name) :
    ∀ c, (pyStrip l).getLast? = some c → pySpace c = false := by
  intro c h
  unfold pyStrip at h
  rw [List.getLast?_reverse] at h
  have hne : (l.dropWhile pySpace).reverse.dropWhile pySpace ≠ [] := by
    intro hx
    rw [hx] at h
    cases h
  have hhead := List.head_dropWhile_not pySpace (l.dropWhile pySpace).reverse hne
  rw [List.head?_eq_head hne] at h
  injection h with h₁
  rw [h₁] at hhead
  exact hhead

theorem pyStrip_head (l : Name) :
    ∀ c, (pyStrip l).head? = some c → pySpace c = false := by
  intro c h
  unfold pyStrip at h
  rw [List.head?_reverse] at h
  have hsplit := List.takeWhile_append_dropWhile pySpace (l.dropWhile pySpace).reverse
  have hgl : (l.dropWhile pySpace).reverse.getLast? = some c := by
    conv_lhs => rw [← hsplit]
    rw [List.getLast?_append, h]
    rfl
  rw [List.getLast?_reverse] at hgl
  have hne : l.dropWhile pySpace ≠ [] := by
    intro hx
    rw [hx] at hgl
    cases hgl
  have hhead := List.head_dropWhile_not pySpace l hne
  rw [List.head?_eq_head hne] at hgl
  injection hgl with h₁
  rw [h₁] at hhead
  exact hhead

/-! ### The canonical shape of `normalize_name` output -/

theorem normalize_props (l : Name) :
    (∀ c ∈ normalize_name l, c ≠ '.' ∧ c ≠ '_') ∧
    (∀ c ∈ normalize_name l, Char.toLower c = c) ∧
    (∀ c ∈ normalize_name l, pySpace c = true → c = ' ') ∧
    List.Chain' (fun a c => ¬(pySpace a = true ∧ pySpace c = true))
      (normalize_name l) ∧
    (∀ c, (normalize_name l).head? = some c → pySpace c = false) ∧
    (∀ c, (normalize_name l).getLast? = some c → pySpace c = false) := by
  have hmem3 : ∀ c ∈ (pyStrip (l.map sepToSpace)).map Char.toLower,
      (c ≠ '.' ∧ c ≠ '_') ∧ Char.toLower c = c := by
    intro c hc
    obtain ⟨c₁, hc₁, rfl⟩ := List.mem_map.1 hc
    have hc₂ := mem_pyStrip hc₁
    obtain ⟨c₀, _, rfl⟩ := List.mem_map.1 hc₂
    exact ⟨noSep_toLower (noSep_sepToSpace c₀), toLower_idem (sepToSpace c₀)⟩
  refine ⟨?_, ?_, ?_, ?_, ?_, ?_⟩
  · intro c hc
    rcases collapseGo_mem _ false c hc with rfl | hc₂
    · exact ⟨by decide, by decide⟩
    · exact (hmem3 c hc₂).1
  · intro c hc
    rcases collapseGo_mem _ false c hc with rfl | hc₂
    · decide
    · exact (hmem3 c hc₂).2
  · intro c hc
    exact collapseGo_space_char _ false c hc
  · exact collapseGo_chain _ false
  · intro c hc
    match hs : (pyStrip (l.map sepToSpace)).map Char.toLower with
    | [] =>
      unfold normalize_name collapseWS at hc
      rw [hs] at hc
      cases hc
    | d :: tl =>
      have hd : pySpace d = false := by
        have hh : ((pyStrip (l.map sepToSpace)).map Char.toLower).head? = some d := by
          rw [hs]
          rfl
        rw [List.head?_map] at hh
        match hsh : (pyStrip (l.map sepToSpace)).head? with
        | none => rw [hsh] at hh; cases hh
        | some d₀ =>
          rw [hsh] at hh
          injection hh with hh₁
          rw [← hh₁, pySpace_toLower]
          exact pyStrip_head _ d₀ hsh
      unfold normalize_name collapseWS at hc
      rw [hs] at hc
      rw [collapseGo_false_head (d :: tl) d rfl hd] at hc
      injection hc with hc₁
      rw [← hc₁]
      exact hd
  · intro c hc
    unfold normalize_name collapseWS at hc
    refine collapseGo_last _ false ?_ c hc
    intro e he
    rw [List.getLast?_map] at he
    match hsl : (pyStrip (l.map sepToSpace)).getLast? with
    | none => rw [hsl] at he; cases he
    | some e₀ =>
      rw [hsl] at he
      injection he with he₁
      rw [← he₁, pySpace_toLower]
      exact pyStrip_last _ e₀ hsl

theorem normalize_name_idem (l : Name) :
    normalize_name (normalize_name l) = normalize_name l := by
  obtain ⟨hsep, hlow, hspc, hch, hhead, hlast⟩ := normalize_props l
  have step1 : (normalize_name l).map sepToSpace = normalize_name l := by
    rw [List.map_congr_left (fun c hc => sepToSpace_eq_self_of_noSep (hsep c hc))]
    exact List.map_id _
  have step3 : (normalize_name l).map Char.toLower = normalize_name l := by
    rw [List.map_congr_left (fun c hc => hlow c hc)]
    exact List.map_id _
  conv_lhs => rw [normalize_name]
  rw [step1, pyStrip_eq_self _ hhead hlast, step3]
  exact (collapseGo_eq_self _ hspc hch).1

/-! ### Case, separator and whitespace insensitivity -/

theorem dropWhile_append_of_all (p : Char → Bool) (w t : Name)
    (h : ∀ c ∈ w, p c = true) : (w ++ t).dropWhile p = t.dropWhile p := by
  induction w with
  | nil => rfl
  | cons c rest ih =>
    rw [List.cons_append, List.dropWhile_cons, if_pos (h c (List.mem_cons_self c rest))]
    exact ih (fun d hd => h d (List.mem_cons_of_mem c hd))

theorem pyStrip_append_left (w t : Name) (hw : ∀ c ∈ w, pySpace c = true) :
    pyStrip (w ++ t) = pyStrip t := by
  unfold pyStrip
  rw [dropWhile_append_of_all _ _ _ hw]

theorem pyStrip_append_right (t w : Name) (hw : ∀ c ∈ w, pySpace c = true) :
    pyStrip (t ++ w) = pyStrip t := by
  unfold pyStrip
  rw [List.dropWhile_append]
  by_cases hemp : (t.dropWhile pySpace).isEmpty
  · rw [if_pos hemp]
    rw [List.dropWhile_eq_nil_iff.2 hw]
    rw [List.isEmpty_iff.1 hemp]
  · rw [if_neg hemp]
    rw [List.reverse_append]
    rw [dropWhile_append_of_all _ w.reverse _
      (fun c hc => hw c (List.mem_reverse.1 hc))]

theorem map_sepToSpace_of_space (w : Name) (hw : ∀ c ∈ w, pySpace c = true) :
    w.map sepToSpace = w := by
  rw [List.map_congr_left (fun c hc => sepToSpace_eq_self_of_space (hw c hc))]
  exact List.map_id _

theorem normalize_name_surround (w₁ w₂ y : Name)
    (h₁ : ∀ c ∈ w₁, pySpace c = true) (h₂ : ∀ c ∈ w₂, pySpace c = true) :
    normalize_name (w₁ ++ y ++ w₂) = normalize_name y := by
  unfold normalize_name
  rw [List.map_append, List.map_append, map_sepToSpace_of_space w₁ h₁,
    map_sepToSpace_of_space w₂ h₂, List.append_assoc,
    pyStrip_append_left _ _ h₁, pyStrip_append_right _ _ h₂]

theorem pyStrip_map_toLower (s : Name) :
    (pyStrip s).map Char.toLower = pyStrip (s.map Char.toLower) := by
  have hpf : (pySpace ∘ Char.toLower) = pySpace := by
    funext c
    exact pySpace_toLower c
  unfold pyStrip
  rw [List.dropWhile_map, hpf, ← List.map_reverse, List.dropWhile_map, hpf,
    ← List.map_reverse]

theorem normalize_name_via_canon (z : Name) :
    normalize_name z = collapseWS (pyStrip (z.map canonChar)) := by
  unfold normalize_name
  rw [pyStrip_map_toLower, List.map_map]
  rfl

theorem normalize_name_of_canon_eq {x y : Name}
    (h : x.map canonChar = y.map canonChar) :
    normalize_name x = normalize_name y := by
  rw [normalize_name_via_canon x, normalize_name_via_canon y, h]

/-- C9: name normalization is idempotent, and two raw folder names that agree
character-for-character up to case and `.`/`_`-for-space substitution
(`canonChar`) and up to surrounding whitespace normalize to the identical
key. -/
theorem c9_normalize_idempotent_insensitive :
    (∀ l : Name, normalize_name (normalize_name l) = normalize_name l) ∧
    (∀ (x y w₁ w₂ : Name),
      (∀ c ∈ w₁, pySpace c = true) → (∀ c ∈ w₂, pySpace c = true) →
      x.map canonChar = y.map canonChar →
      normalize_name (w₁ ++ y ++ w₂) = normalize_name x) := by
  refine ⟨normalize_name_idem, ?_⟩
  intro x y w₁ w₂ h₁ h₂ hc
  rw [normalize_name_surround w₁ w₂ y h₁ h₂]
  exact (normalize_name_of_canon_eq hc).symm

theorem c9_witness :
    normalize_name ("  The.HOMERS ".data) = normalize_name ("the_homers".data) ∧
    normalize_name (normalize_name ("The.Homers".data)) =
      normalize_name ("The.Homers".data) := by
  constructor
  · have h := c9_normalize_idempotent_insensitive.2 ("the_homers".data)
      ("The.HOMERS".data) ("  ".data) (" ".data)
      (by decide) (by decide) (by decide)
    rw [show ("  The.HOMERS ".data : Name) =
      ("  ".data ++ "The.HOMERS".data ++ " ".data : Name) from by decide]
    exact h
  · exact c9_normalize_idempotent_insensitive.1 ("The.Homers".data)

/-! ### Witnesses and the companion-overwrite counterexample -/

theorem c1_witness :
    processSeries true fsTwoSeries ("bar".data) serBar =
      SeriesOutcome.mk fsTwoSeries [] [conflictMsg serBar.display_name] [] := by
  refine (c1_conflict_gate true fsTwoSeries ("bar".data) serBar (by decide)).1 ?_
  exact ⟨((1, 1),
    [EpisodeCopy.mk [rootA, "Bar".data, "Bar.S01E01.mkv".data]
       100000000 100000000 rootA [] [],
     EpisodeCopy.mk [rootB, "bar".data, "Bar.S01E01.mkv".data]
       90000000 90000000 rootB [] []]), by decide, by decide, by decide⟩

theorem c10_witness :
    processSeries true fsTwoSeries ("baz".data) serBaz =
      SeriesOutcome.mk fsTwoSeries [] [conflictMsg serBaz.display_name] [] :=
  c10_same_root_conflict true fsTwoSeries ("baz".data) serBaz (by decide)
    ((1, 1),
      [EpisodeCopy.mk [rootA, "Baz".data, "Baz.S01E01.mkv".data]
         100000000 100000000 rootA [] [],
       EpisodeCopy.mk [rootA, "Baz".data, "Season 1".data, "Baz.S01E01.x264.mkv".data]
         90000000 90000000 rootA ["Season 1".data] []])
    (by decide)
    (EpisodeCopy.mk [rootA, "Baz".data, "Baz.S01E01.mkv".data]
      100000000 100000000 rootA [] [])
    (EpisodeCopy.mk [rootA, "Baz".data, "Season 1".data, "Baz.S01E01.x264.mkv".data]
      90000000 90000000 rootA ["Season 1".data] [])
    (by decide) (by decide) (by decide) (by decide) (by decide)

theorem c2_witness :
    get_free_space fsTwoSeries rootB -
      bytesNeeded serFooA.episodes serFooA.artifacts rootB > MIN_FREE_BUFFER ∧
    (processSeries true fsTwoSeries ("fooa".data) serFooA).decisions =
      [("fooa".data, some rootB)] := by
  have h := (c2_target_selection true fsTwoSeries ("fooa".data) serFooA
    (by decide) (by decide)).2.2.2.1 rootB ("FooA2".data) 10000000000 (by decide)
  exact ⟨h.1, h.2.2⟩

theorem c5_witness :
    processEpisode false rootB [rootB, "Foo2".data] fsColl ((1, 1), [epColl]) =
      (fsColl, [Action.abortCollision [rootB, "Foo2".data, "v.S01E01.mkv".data],
                Action.abortEpisode 1 1]) :=
  (c5_collision_is_local false rootB [rootB, "Foo2".data] fsColl 1 1 epColl [] []
    (by decide) (by decide) (by decide)).1

theorem c3_witness :
    safe_move fsColl [rootA, "Foo".data, "v.S01E01.mkv".data] [rootB, "Foo2".data]
        false =
      OpRes.mk fsColl
        [Action.abortCollision [rootB, "Foo2".data, "v.S01E01.mkv".data]] false ∧
    alookup [rootB, "Qux2".data, "Qux.S01E01.srt".data]
      (force_move fsQux [rootA, "Qux".data, "Qux.S01E01.srt".data]
        [rootB, "Qux2".data] false).fs.files = some 7 ∧
    processEpisode true rootB [rootB, "Qux2".data] fsQux
        ((1, 1), [EpisodeCopy.mk [rootA, "Qux".data, "Qux.S01E01.mkv".data]
          1000000000 1000000007 rootA []
          [Companion.mk [rootA, "Qux".data, "Qux.S01E01.srt".data] 7]]) =
      (fsQux,
       [Action.moveFile [rootA, "Qux".data, "Qux.S01E01.mkv".data]
          [rootB, "Qux2".data, "Qux.S01E01.mkv".data],
        Action.mergeFile [rootA, "Qux".data, "Qux.S01E01.srt".data]
          [rootB, "Qux2".data, "Qux.S01E01.srt".data]]) := by
  refine ⟨c3_transfer_semantics.1 fsColl _ _ false (by decide) (by decide),
    (c3_transfer_semantics.2.1 fsQux [rootA, "Qux".data, "Qux.S01E01.srt".data]
      [rootB, "Qux2".data] 7 (by decide) (by decide)).1,
    c3_transfer_semantics.2.2 rootB [rootB, "Qux2".data] fsQux 1 1 _ []
      (by decide) (by decide) (by decide) (by decide)⟩

theorem c3_counterexample :
    alookup [rootB, "Qux2".data, "Qux.S01E01.srt".data] fsQux.files = some 5 ∧
    alookup [rootB, "Qux2".data, "Qux.S01E01.srt".data]
      (processSeries true fsQux ("qux".data) serQux).fs.files = some 7 ∧
    Action.mergeFile [rootA, "Qux".data, "Qux.S01E01.srt".data]
      [rootB, "Qux2".data, "Qux.S01E01.srt".data] ∈
        (processSeries true fsQux ("qux".data) serQux).actions :=
  ⟨by decide, by decide, by decide⟩

/-! ### C7: artifact recording -/

theorem artifactScan_go (dirpath : Path) (disk : Name) (relDir : Path)
    (claimed : List Name) :
    ∀ (l : List (Name × Int)) (acc : List Artifact),
      l.foldl
        (fun acc fe =>
          if fe.1 ∈ claimed then acc
          else if fe.1.head? = some '.' then acc
          else acc ++ [Artifact.mk (dirpath ++ [fe.1]) disk relDir fe.2]) acc =
      acc ++ (l.filter
          (fun fe => decide (fe.1 ∉ claimed ∧ fe.1.head? ≠ some '.'))).map
        (fun fe => Artifact.mk (dirpath ++ [fe.1]) disk relDir fe.2) := by
  intro l
  induction l with
  | nil => intro acc; simp
  | cons fe rest ih =>
    intro acc
    rw [List.foldl_cons, List.filter_cons]
    by_cases h1 : fe.1 ∈ claimed
    · rw [if_pos h1]
      have : decide (fe.1 ∉ claimed ∧ fe.1.head? ≠ some '.') = false := by
        simp [h1]
      rw [this, if_neg (by simp)]
      exact ih acc
    · rw [if_neg h1]
      by_cases h2 : fe.1.head? = some '.'
      · rw [if_pos h2]
        have : decide (fe.1 ∉ claimed ∧ fe.1.head? ≠ some '.') = false := by
          simp [h2]
        rw [this, if_neg (by simp)]
        exact ih acc
      · rw [if_neg h2]
        have : decide (fe.1 ∉ claimed ∧ fe.1.head? ≠ some '.') = true := by
          simp [h1, h2]
        rw [this, if_pos rfl, ih, List.map_cons]
        simp

theorem artifactScan_eq (dirpath : Path) (disk : Name) (relDir : Path)
    (claimed : List Name) (files : List (Name × Int)) :
    artifactScan dirpath disk relDir claimed files =
      (files.filter
          (fun fe => decide (fe.1 ∉ claimed ∧ fe.1.head? ≠ some '.'))).map
        (fun fe => Artifact.mk (dirpath ++ [fe.1]) disk relDir fe.2) := by
  rw [artifactScan, artifactScan_go]
  rfl

theorem processDir_artifacts (disk : Name) (seriesPath relDir : Path)
    (files : List (Name × Int)) :
    (processDir disk seriesPath relDir files).artifacts =
      artifactScan (seriesPath ++ relDir) disk relDir
        (processDir disk seriesPath relDir files).claimed files := rfl

/-- C7 (amended): a scanned file that is not claimed as an EpisodeCopy or
Companion is recorded as an Artifact with its path, root, relative
subdirectory and size — provided its name does not start with a dot (dotfiles
are silently skipped by the artifact loop); and the directory's contribution
to the per-root total is the sum of the entry aggregate sizes plus the sum of
the artifact sizes. -/
theorem c7_artifact_recording (disk : Name) (seriesPath relDir : Path)
    (files : List (Name × Int)) (f : Name) (sz : Int)
    (hmem : (f, sz) ∈ files)
    (hcl : f ∉ (processDir disk seriesPath relDir files).claimed)
    (hdot : f.head? ≠ some '.') :
    Artifact.mk ((seriesPath ++ relDir) ++ [f]) disk relDir sz ∈
      (processDir disk seriesPath relDir files).artifacts ∧
    (processDir disk seriesPath relDir files).totalAdded =
      ((processDir disk seriesPath relDir files).entries.map
          (fun e => e.2.total_size)).sum
        + ((processDir disk seriesPath relDir files).artifacts.map
          (fun a => a.size)).sum := by
  constructor
  · rw [processDir_artifacts, artifactScan_eq, List.mem_map]
    exact ⟨(f, sz), List.mem_filter.2 ⟨hmem, by simp [hcl, hdot]⟩, rfl⟩
  · rfl

theorem c7_witness :
    Artifact.mk [rootA, "Foo".data, "banner.jpg".data] rootA [] 10 ∈
      (processDir rootA [rootA, "Foo".data] []
        [("banner.jpg".data, 10)]).artifacts :=
  (c7_artifact_recording rootA [rootA, "Foo".data] [] [("banner.jpg".data, 10)]
    ("banner.jpg".data) 10 (by decide) (by decide) (by decide)).1

/-- C7 counterexample: a dotfile under the series tree that is claimed by
nothing is nevertheless not recorded as an Artifact, and contributes nothing
to the per-root total. -/
theorem c7_counterexample :
    ((".banner.jpg".data, (10 : Int)) ∈
        [((".banner.jpg".data : Name), (10 : Int))]) ∧
    (processDir rootA [rootA, "Foo".data] []
        [(".banner.jpg".data, 10)]).claimed = [] ∧
    (processDir rootA [rootA, "Foo".data] []
        [(".banner.jpg".data, 10)]).artifacts = [] ∧
    (processDir rootA [rootA, "Foo".data] []
        [(".banner.jpg".data, 10)]).totalAdded = 0 :=
  ⟨by decide, by decide, by decide, by decide⟩

/-! ### C8: properties of `appendAt` (defaultdict append) -/

theorem appendAt_keys {β : Type} (k : Slot) (m : β) :
    ∀ gs : List (Slot × List β),
      (appendAt k m gs).map (fun g => g.1) =
        if k ∈ gs.map (fun g => g.1) then gs.map (fun g => g.1)
        else gs.map (fun g => g.1) ++ [k] := by
  intro gs
  induction gs with
  | nil => simp [appendAt]
  | cons g₁ rest ih =>
    obtain ⟨k₁, ms⟩ := g₁
    rw [appendAt]
    by_cases h : k₁ = k
    · subst h
      simp
    · rw [if_neg h]
      simp only [List.map_cons, ih]
      by_cases hmem : k ∈ rest.map (fun g => g.1)
      · rw [if_pos hmem, if_pos (List.mem_cons_of_mem _ hmem)]
      · rw [if_neg hmem, if_neg ?hnotin]
        · simp
        case hnotin =>
          intro hc
          rcases List.mem_cons.1 hc with heq | hc₂
          · exact h heq.symm
          · exact hmem hc₂

theorem appendAt_keys_nodup {β : Type} (k : Slot) (m : β)
    (gs : List (Slot × List β))
    (h : (gs.map (fun g => g.1)).Nodup) :
    ((appendAt k m gs).map (fun g => g.1)).Nodup := by
  rw [appendAt_keys]
  by_cases hmem : k ∈ gs.map (fun g => g.1)
  · rwa [if_pos hmem]
  · rw [if_neg hmem]
    simp [List.nodup_append, h, hmem]

theorem appendAt_mem_members {β : Type} (k : Slot) (m : β) :
    ∀ (gs : List (Slot × List β)) (g : Slot × List β), g ∈ appendAt k m gs →
      ∀ x ∈ g.2, (∃ g₀ ∈ gs, g₀.1 = g.1 ∧ x ∈ g₀.2) ∨ (g.1 = k ∧ x = m) := by
  intro gs
  induction gs with
  | nil =>
    intro g hg x hx
    rw [appendAt] at hg
    rcases List.mem_singleton.1 hg with rfl
    right
    exact ⟨rfl, by simpa using hx⟩
  | cons g₁ rest ih =>
    obtain ⟨k₁, ms⟩ := g₁
    intro g hg x hx
    rw [appendAt] at hg
    by_cases h : k₁ = k
    · rw [if_pos h] at hg
      rcases List.mem_cons.1 hg with rfl | hg₂
      · rcases List.mem_append.1 hx with hx₁ | hx₂
        · exact Or.inl ⟨(k₁, ms), List.mem_cons_self _ _, rfl, hx₁⟩
        · exact Or.inr ⟨h, by simpa using hx₂⟩
      · exact Or.inl ⟨g, List.mem_cons_of_mem _ hg₂, rfl, hx⟩
    · rw [if_neg h] at hg
      rcases List.mem_cons.1 hg with rfl | hg₂
      · exact Or.inl ⟨(k₁, ms), List.mem_cons_self _ _, rfl, hx⟩
      · rcases ih g hg₂ x hx with ⟨g₀, hg₀, he, hx₀⟩ | hnew
        · exact Or.inl ⟨g₀, List.mem_cons_of_mem _ hg₀, he, hx₀⟩
        · exact Or.inr hnew

theorem appendAt_mem_self {β : Type} (k : Slot) (m : β) :
    ∀ gs : List (Slot × List β), ∃ g ∈ appendAt k m gs, g.1 = k ∧ m ∈ g.2 := by
  intro gs
  induction gs with
  | nil => exact ⟨(k, [m]), by rw [appendAt]; exact List.mem_singleton_self _, rfl,
      List.mem_singleton_self _⟩
  | cons g₁ rest ih =>
    obtain ⟨k₁, ms⟩ := g₁
    rw [appendAt]
    by_cases h : k₁ = k
    · rw [if_pos h]
      exact ⟨(k₁, ms ++ [m]), List.mem_cons_self _ _, h, List.mem_append_right _
        (List.mem_singleton_self _)⟩
    · rw [if_neg h]
      obtain ⟨g, hg, hk, hm⟩ := ih
      exact ⟨g, List.mem_cons_of_mem _ hg, hk, hm⟩

theorem appendAt_extends {β : Type} (k : Slot) (m : β) :
    ∀ (gs : List (Slot × List β)) (g : Slot × List β), g ∈ gs →
      ∃ g₁ ∈ appendAt k m gs, g₁.1 = g.1 ∧ ∀ x ∈ g.2, x ∈ g₁.2 := by
  intro gs
  induction gs with
  | nil => intro g hg; exact absurd hg (List.not_mem_nil g)
  | cons g₁ rest ih =>
    obtain ⟨k₁, ms⟩ := g₁
    intro g hg
    rw [appendAt]
    rcases List.mem_cons.1 hg with rfl | hg₂
    · by_cases h : k₁ = k
      · rw [if_pos h]
        exact ⟨(k₁, ms ++ [m]), List.mem_cons_self _ _, rfl,
          fun x hx => List.mem_append_left _ hx⟩
      · rw [if_neg h]
        exact ⟨(k₁, ms), List.mem_cons_self _ _, rfl, fun x hx => hx⟩
    · by_cases h : k₁ = k
      · rw [if_pos h]
        exact ⟨g, List.mem_cons_of_mem _ hg₂, rfl, fun x hx => hx⟩
      · rw [if_neg h]
        obtain ⟨g₂, hg₂', hk, hsub⟩ := ih g hg₂
        exact ⟨g₂, List.mem_cons_of_mem _ hg₂', hk, hsub⟩

/-! ### C8: properties of the grouping loop -/

theorem bgStep_some (dirpath : Path)
    (acc : List (Slot × List MatchedFile) × List (Name × Int))
    (fe : Name × Int) (s e me : Nat) (h : seSearch fe.1 = some (s, e, me)) :
    bgStep dirpath acc fe =
      (appendAt (s, e) (MatchedFile.mk fe.1 (dirpath ++ [fe.1]) fe.2 me) acc.1,
       acc.2) := by
  simp only [bgStep, h]

theorem bgStep_none (dirpath : Path)
    (acc : List (Slot × List MatchedFile) × List (Name × Int))
    (fe : Name × Int) (h : seSearch fe.1 = none) :
    bgStep dirpath acc fe = (acc.1, acc.2 ++ [fe]) := by
  simp only [bgStep, h]

theorem bg_go_keys_nodup (dirpath : Path) :
    ∀ (files : List (Name × Int))
      (acc : List (Slot × List MatchedFile) × List (Name × Int)),
      (acc.1.map (fun g => g.1)).Nodup →
      (((files.foldl (bgStep dirpath) acc).1).map (fun g => g.1)).Nodup := by
  intro files
  induction files with
  | nil => exact fun acc h => h
  | cons fe rest ih =>
    intro acc hacc
    rw [List.foldl_cons]
    rcases hse : seSearch fe.1 with _ | ⟨s, e, me⟩
    · rw [bgStep_none dirpath acc fe hse]
      exact ih _ hacc
    · rw [bgStep_some dirpath acc fe s e me hse]
      exact ih _ (appendAt_keys_nodup _ _ _ hacc)

theorem bg_go_members (dirpath : Path) :
    ∀ (files : List (Name × Int))
      (acc : List (Slot × List MatchedFile) × List (Name × Int))
      (g : Slot × List MatchedFile),
      g ∈ (files.foldl (bgStep dirpath) acc).1 → ∀ x ∈ g.2,
      (∃ g₀ ∈ acc.1, g₀.1 = g.1 ∧ x ∈ g₀.2) ∨
      (∃ fe ∈ files, ∃ s e me, seSearch fe.1 = some (s, e, me) ∧ g.1 = (s, e) ∧
        x = MatchedFile.mk fe.1 (dirpath ++ [fe.1]) fe.2 me) := by
  intro files
  induction files with
  | nil =>
    intro acc g hg x hx
    exact Or.inl ⟨g, hg, rfl, hx⟩
  | cons fe rest ih =>
    intro acc g hg x hx
    rw [List.foldl_cons] at hg
    rcases hse : seSearch fe.1 with _ | ⟨s, e, me⟩
    · rw [bgStep_none dirpath acc fe hse] at hg
      rcases ih _ g hg x hx with ⟨g₀, hg₀, heq, hx₀⟩ |
        ⟨fe₂, hfe₂, s₂, e₂, me₂, hse₂, hsl₂, hx₂⟩
      · exact Or.inl ⟨g₀, hg₀, heq, hx₀⟩
      · exact Or.inr ⟨fe₂, List.mem_cons_of_mem _ hfe₂, s₂, e₂, me₂, hse₂, hsl₂, hx₂⟩
    · rw [bgStep_some dirpath acc fe s e me hse] at hg
      rcases ih _ g hg x hx with ⟨g₀, hg₀, heq, hx₀⟩ |
        ⟨fe₂, hfe₂, s₂, e₂, me₂, hse₂, hsl₂, hx₂⟩
      · rcases appendAt_mem_members (s, e) _ acc.1 g₀ hg₀ x hx₀ with
          ⟨g₁, hg₁, he₁, hx₁⟩ | ⟨hk, hxm⟩
        · exact Or.inl ⟨g₁, hg₁, he₁.trans heq, hx₁⟩
        · exact Or.inr ⟨fe, List.mem_cons_self _ _, s, e, me, hse, heq ▸ hk, hxm⟩
      · exact Or.inr ⟨fe₂, List.mem_cons_of_mem _ hfe₂, s₂, e₂, me₂, hse₂, hsl₂, hx₂⟩

theorem bg_go_extends (dirpath : Path) :
    ∀ (files : List (Name × Int))
      (acc : List (Slot × List MatchedFile) × List (Name × Int))
      (g : Slot × List MatchedFile), g ∈ acc.1 →
      ∃ g₁ ∈ (files.foldl (bgStep dirpath) acc).1, g₁.1 = g.1 ∧
        ∀ x ∈ g.2, x ∈ g₁.2 := by
  intro files
  induction files with
  | nil => exact fun acc g hg => ⟨g, hg, rfl, fun x hx => hx⟩
  | cons fe rest ih =>
    intro acc g hg
    rw [List.foldl_cons]
    rcases hse : seSearch fe.1 with _ | ⟨s, e, me⟩
    · rw [bgStep_none dirpath acc fe hse]
      exact ih _ g hg
    · rw [bgStep_some dirpath acc fe s e me hse]
      obtain ⟨g₂, hg₂, hk₂, hsub₂⟩ := appendAt_extends (s, e) _ acc.1 g hg
      obtain ⟨g₁, hg₁, hk₁, hsub₁⟩ := ih
        (appendAt (s, e) (MatchedFile.mk fe.1 (dirpath ++ [fe.1]) fe.2 me) acc.1,
         acc.2) g₂ hg₂
      exact ⟨g₁, hg₁, hk₁.trans hk₂, fun x hx => hsub₁ x (hsub₂ x hx)⟩

theorem bg_go_complete (dirpath : Path) :
    ∀ (files : List (Name × Int))
      (acc : List (Slot × List MatchedFile) × List (Name × Int))
      (f : Name) (sz : Int) (s e me : Nat), (f, sz) ∈ files →
      seSearch f = some (s, e, me) →
      ∃ g ∈ (files.foldl (bgStep dirpath) acc).1, g.1 = (s, e) ∧
        MatchedFile.mk f (dirpath ++ [f]) sz me ∈ g.2 := by
  intro files
  induction files with
  | nil => intro acc f sz s e me hmem; exact absurd hmem (List.not_mem_nil _)
  | cons fe rest ih =>
    intro acc f sz s e me hmem hf
    rw [List.foldl_cons]
    rcases List.mem_cons.1 hmem with heq | hrest
    · cases heq.symm
      rw [bgStep_some dirpath acc (f, sz) s e me hf]
      obtain ⟨g₂, hg₂, hk₂, hm₂⟩ := appendAt_mem_self (s, e)
        (MatchedFile.mk f (dirpath ++ [f]) sz me) acc.1
      obtain ⟨g₁, hg₁, hk₁, hsub₁⟩ := bg_go_extends dirpath rest
        (appendAt (s, e) (MatchedFile.mk f (dirpath ++ [f]) sz me) acc.1, acc.2)
        g₂ hg₂
      exact ⟨g₁, hg₁, hk₁.trans hk₂, hsub₁ _ hm₂⟩
    · rcases hse : seSearch fe.1 with _ | ⟨s₂, e₂, me₂⟩
      · rw [bgStep_none dirpath acc fe hse]
        exact ih _ f sz s e me hrest hf
      · rw [bgStep_some dirpath acc fe s₂ e₂ me₂ hse]
        exact ih _ f sz s e me hrest hf

theorem bg_go_um (dirpath : Path) :
    ∀ (files : List (Name × Int))
      (acc : List (Slot × List MatchedFile) × List (Name × Int)),
      (files.foldl (bgStep dirpath) acc).2 =
        acc.2 ++ files.filter (fun fe => (seSearch fe.1).isNone) := by
  intro files
  induction files with
  | nil => intro acc; simp
  | cons fe rest ih =>
    intro acc
    rw [List.foldl_cons]
    rcases hse : seSearch fe.1 with _ | ⟨s, e, me⟩
    · rw [bgStep_none dirpath acc fe hse, ih, List.filter_cons]
      simp [hse]
    · rw [bgStep_some dirpath acc fe s e me hse, ih, List.filter_cons]
      simp [hse]

theorem buildGroups_keys_nodup (dirpath : Path) (files : List (Name × Int)) :
    (((buildGroups dirpath files).1).map (fun g => g.1)).Nodup :=
  bg_go_keys_nodup dirpath files ([], []) (by simp)

theorem buildGroups_members (dirpath : Path) (files : List (Name × Int))
    (g : Slot × List MatchedFile) (hg : g ∈ (buildGroups dirpath files).1)
    (x : MatchedFile) (hx : x ∈ g.2) :
    seSearch x.filename = some (g.1.1, g.1.2, x.match_end) ∧
    x.path = dirpath ++ [x.filename] ∧ (x.filename, x.size) ∈ files := by
  rcases bg_go_members dirpath files ([], []) g hg x hx with ⟨g₀, hg₀, _, _⟩ |
    ⟨fe, hfe, s, e, me, hse, hslot, hxeq⟩
  · exact absurd hg₀ (List.not_mem_nil _)
  · subst hxeq
    rw [hslot]
    exact ⟨hse, rfl, hfe⟩

theorem buildGroups_complete (dirpath : Path) (files : List (Name × Int))
    (f : Name) (sz : Int) (s e me : Nat) (hmem : (f, sz) ∈ files)
    (hf : seSearch f = some (s, e, me)) :
    ∃ g ∈ (buildGroups dirpath files).1, g.1 = (s, e) ∧
      MatchedFile.mk f (dirpath ++ [f]) sz me ∈ g.2 :=
  bg_go_complete dirpath files ([], []) f sz s e me hmem hf

theorem buildGroups_um (dirpath : Path) (files : List (Name × Int)) :
    (buildGroups dirpath files).2 =
      files.filter (fun fe => (seSearch fe.1).isNone) := by
  have h := bg_go_um dirpath files ([], [])
  simpa using h

/-! ### C8: properties of the prefix-companion pass -/

theorem pcStep_fst (dirpath : Path) (pfx : Name) (acc : List Companion × List Name)
    (fe : Name × Int) :
    (pcStep dirpath pfx acc fe).1 = acc.1 ∨
      (pcStep dirpath pfx acc fe).1 =
        acc.1 ++ [Companion.mk (dirpath ++ [fe.1]) fe.2] := by
  by_cases h1 : fe.1 ∈ acc.2
  · left
    simp only [pcStep, if_pos h1]
  · by_cases h2 : pfx.isPrefixOf fe.1 = true
    · right
      simp only [pcStep, if_neg h1, if_pos h2]
    · left
      simp only [pcStep, if_neg h1, if_neg h2]

theorem pcStep_snd (dirpath : Path) (pfx : Name) (acc : List Companion × List Name)
    (fe : Name × Int) :
    (pcStep dirpath pfx acc fe).2 = acc.2 ∨
      (pcStep dirpath pfx acc fe).2 = acc.2 ++ [fe.1] := by
  by_cases h1 : fe.1 ∈ acc.2
  · left
    simp only [pcStep, if_pos h1]
  · by_cases h2 : pfx.isPrefixOf fe.1 = true
    · right
      simp only [pcStep, if_neg h1, if_pos h2]
    · left
      simp only [pcStep, if_neg h1, if_neg h2]

theorem pc_go_comps_mono (dirpath : Path) (pfx : Name) :
    ∀ (um : List (Name × Int)) (acc : List Companion × List Name) (c : Companion),
      c ∈ acc.1 → c ∈ (um.foldl (pcStep dirpath pfx) acc).1 := by
  intro um
  induction um with
  | nil => exact fun acc c hc => hc
  | cons fe rest ih =>
    intro acc c hc
    rw [List.foldl_cons]
    refine ih _ c ?_
    rcases pcStep_fst dirpath pfx acc fe with h | h
    · rw [h]; exact hc
    · rw [h]; exact List.mem_append_left _ hc

theorem pc_go_claimed_mono (dirpath : Path) (pfx : Name) :
    ∀ (um : List (Name × Int)) (acc : List Companion × List Name) (f : Name),
      f ∈ acc.2 → f ∈ (um.foldl (pcStep dirpath pfx) acc).2 := by
  intro um
  induction um with
  | nil => exact fun acc f hf => hf
  | cons fe rest ih =>
    intro acc f hf
    rw [List.foldl_cons]
    refine ih _ f ?_
    rcases pcStep_snd dirpath pfx acc fe with h | h
    · rw [h]; exact hf
    · rw [h]; exact List.mem_append_left _ hf

theorem pc_go_adds (dirpath : Path) (pfx : Name) :
    ∀ (um : List (Name × Int)) (acc : List Companion × List Name)
      (f : Name) (sz : Int),
      (f, sz) ∈ um → ¬ f ∈ acc.2 → pfx.isPrefixOf f = true →
      (um.map (fun fe => fe.1)).Nodup →
      Companion.mk (dirpath ++ [f]) sz ∈ (um.foldl (pcStep dirpath pfx) acc).1 ∧
        f ∈ (um.foldl (pcStep dirpath pfx) acc).2 := by
  intro um
  induction um with
  | nil => intro acc f sz hmem; exact absurd hmem (List.not_mem_nil _)
  | cons fe rest ih =>
    intro acc f sz hmem hncl hpre hnd
    rw [List.foldl_cons]
    rcases List.mem_cons.1 hmem with heq | hrest
    · cases heq.symm
      have hstep : pcStep dirpath pfx acc (f, sz) =
          (acc.1 ++ [Companion.mk (dirpath ++ [f]) sz], acc.2 ++ [f]) := by
        simp only [pcStep, if_neg hncl, if_pos hpre]
      rw [hstep]
      exact ⟨pc_go_comps_mono dirpath pfx rest
          (acc.1 ++ [Companion.mk (dirpath ++ [f]) sz], acc.2 ++ [f]) _
          (List.mem_append_right _ (List.mem_singleton_self _)),
        pc_go_claimed_mono dirpath pfx rest
          (acc.1 ++ [Companion.mk (dirpath ++ [f]) sz], acc.2 ++ [f]) f
          (List.mem_append_right _ (List.mem_singleton_self _))⟩
    · rw [List.map_cons, List.nodup_cons] at hnd
      have hf_in : f ∈ rest.map (fun fe => fe.1) := List.mem_map.2 ⟨(f, sz), hrest, rfl⟩
      have hne : f ≠ fe.1 := fun h => hnd.1 (h ▸ hf_in)
      refine ih _ f sz hrest ?_ hpre hnd.2
      rcases pcStep_snd dirpath pfx acc fe with h | h
      · rw [h]; exact hncl
      · rw [h]
        intro hc
        rcases List.mem_append.1 hc with hc₁ | hc₂
        · exact hncl hc₁
        · exact hne (List.mem_singleton.1 hc₂)

theorem prefixCompanions_claimed_mono (dirpath : Path) (pfx : Name)
    (um : List (Name × Int)) (claimed : List Name) (f : Name) (h : f ∈ claimed) :
    f ∈ (prefixCompanions dirpath pfx um claimed).2 :=
  pc_go_claimed_mono dirpath pfx um ([], claimed) f h

theorem prefixCompanions_adds (dirpath : Path) (pfx : Name)
    (um : List (Name × Int)) (claimed : List Name) (f : Name) (sz : Int)
    (hmem : (f, sz) ∈ um) (hncl : ¬ f ∈ claimed) (hpre : pfx.isPrefixOf f = true)
    (hnd : (um.map (fun fe => fe.1)).Nodup) :
    Companion.mk (dirpath ++ [f]) sz ∈ (prefixCompanions dirpath pfx um claimed).1 ∧
      f ∈ (prefixCompanions dirpath pfx um claimed).2 :=
  pc_go_adds dirpath pfx um ([], claimed) f sz hmem hncl hpre hnd

/-! ### C8: equations of the per-group promotion step -/

theorem processGroup_eq_nil (disk : Name) (relDir : Path) (dirpath : Path)
    (um : List (Name × Int)) (st : List Name × List (Slot × EpisodeCopy))
    (g : Slot × List MatchedFile)
    (hsort : sortDescBy (fun m => m.size) g.2 = []) :
    processGroup disk relDir dirpath um st g = st := by
  simp only [processGroup, hsort]

theorem processGroup_eq_small (disk : Name) (relDir : Path) (dirpath : Path)
    (um : List (Name × Int)) (st : List Name × List (Slot × EpisodeCopy))
    (g : Slot × List MatchedFile) (cand : MatchedFile) (restg : List MatchedFile)
    (hsort : sortDescBy (fun m => m.size) g.2 = cand :: restg)
    (hsz : ¬ cand.size > MIN_VIDEO_SIZE) :
    processGroup disk relDir dirpath um st g = st := by
  simp only [processGroup, hsort]
  rw [if_neg hsz]

theorem processGroup_eq_big (disk : Name) (relDir : Path) (dirpath : Path)
    (um : List (Name × Int)) (st : List Name × List (Slot × EpisodeCopy))
    (g : Slot × List MatchedFile) (cand : MatchedFile) (restg : List MatchedFile)
    (hsort : sortDescBy (fun m => m.size) g.2 = cand :: restg)
    (hsz : cand.size > MIN_VIDEO_SIZE) :
    processGroup disk relDir dirpath um st g =
      ((prefixCompanions dirpath (cand.filename.take cand.match_end) um
          (st.1 ++ [cand.filename] ++ restg.map (fun m => m.filename))).2,
       st.2 ++ [(g.1, EpisodeCopy.mk cand.path cand.size
         (cand.size + ((restg.map (fun m => Companion.mk m.path m.size) ++
           (prefixCompanions dirpath (cand.filename.take cand.match_end) um
             (st.1 ++ [cand.filename] ++ restg.map (fun m => m.filename))).1).map
               (fun c => c.size)).sum)
         disk relDir
         (restg.map (fun m => Companion.mk m.path m.size) ++
           (prefixCompanions dirpath (cand.filename.take cand.match_end) um
             (st.1 ++ [cand.filename] ++
               restg.map (fun m => m.filename))).1))]) := by
  simp only [processGroup, hsort]
  rw [if_pos hsz]

theorem processGroup_entries_extend (disk : Name) (relDir : Path) (dirpath : Path)
    (um : List (Name × Int)) (st : List Name × List (Slot × EpisodeCopy))
    (g : Slot × List MatchedFile) :
    ∃ t, (processGroup disk relDir dirpath um st g).2 = st.2 ++ t ∧
      (t = [] ∨ ∃ e, t = [(g.1, e)]) := by
  rcases hsort : sortDescBy (fun m => m.size) g.2 with _ | ⟨cand, restg⟩
  · exact ⟨[], by rw [processGroup_eq_nil _ _ _ _ _ _ hsort]; simp, Or.inl rfl⟩
  · by_cases hsz : cand.size > MIN_VIDEO_SIZE
    · rw [processGroup_eq_big _ _ _ _ _ _ _ _ hsort hsz]
      exact ⟨_, rfl, Or.inr ⟨_, rfl⟩⟩
    · exact ⟨[], by rw [processGroup_eq_small _ _ _ _ _ _ _ _ hsort hsz]; simp,
        Or.inl rfl⟩

theorem processGroup_claimed_mono (disk : Name) (relDir : Path) (dirpath : Path)
    (um : List (Name × Int)) (st : List Name × List (Slot × EpisodeCopy))
    (g : Slot × List MatchedFile) (f : Name) (h : f ∈ st.1) :
    f ∈ (processGroup disk relDir dirpath um st g).1 := by
  rcases hsort : sortDescBy (fun m => m.size) g.2 with _ | ⟨cand, restg⟩
  · rw [processGroup_eq_nil _ _ _ _ _ _ hsort]; exact h
  · by_cases hsz : cand.size > MIN_VIDEO_SIZE
    · rw [processGroup_eq_big _ _ _ _ _ _ _ _ hsort hsz]
      exact prefixCompanions_claimed_mono _ _ _ _ _
        (List.mem_append_left _ (List.mem_append_left _ h))
    · rw [processGroup_eq_small _ _ _ _ _ _ _ _ hsort hsz]; exact h

/-! ### C8: properties of the fold over slot groups -/

theorem pg_go_entries_mono (disk : Name) (relDir dirpath : Path)
    (um : List (Name × Int)) :
    ∀ (gs : List (Slot × List MatchedFile))
      (st : List Name × List (Slot × EpisodeCopy)) (q : Slot) (e : EpisodeCopy),
      (q, e) ∈ st.2 →
      (q, e) ∈ (gs.foldl (processGroup disk relDir dirpath um) st).2 := by
  intro gs
  induction gs with
  | nil => exact fun st q e h => h
  | cons g rest ih =>
    intro st q e h
    rw [List.foldl_cons]
    refine ih _ q e ?_
    obtain ⟨t, ht, _⟩ := processGroup_entries_extend disk relDir dirpath um st g
    rw [ht]
    exact List.mem_append_left _ h

theorem pg_go_claimed_mono (disk : Name) (relDir dirpath : Path)
    (um : List (Name × Int)) :
    ∀ (gs : List (Slot × List MatchedFile))
      (st : List Name × List (Slot × EpisodeCopy)) (f : Name),
      f ∈ st.1 → f ∈ (gs.foldl (processGroup disk relDir dirpath um) st).1 := by
  intro gs
  induction gs with
  | nil => exact fun st f h => h
  | cons g rest ih =>
    intro st f h
    rw [List.foldl_cons]
    exact ih _ f (processGroup_claimed_mono disk relDir dirpath um st g f h)

theorem pg_go_entries_origin (disk : Name) (relDir dirpath : Path)
    (um : List (Name × Int)) :
    ∀ (gs : List (Slot × List MatchedFile))
      (st : List Name × List (Slot × EpisodeCopy)) (q : Slot) (e : EpisodeCopy),
      (q, e) ∈ (gs.foldl (processGroup disk relDir dirpath um) st).2 →
      (q, e) ∈ st.2 ∨ ∃ g ∈ gs, g.1 = q ∧ ∃ cand restg claimed1,
        sortDescBy (fun m => m.size) g.2 = cand :: restg ∧
        cand.size > MIN_VIDEO_SIZE ∧
        e = EpisodeCopy.mk cand.path cand.size
          (cand.size + ((restg.map (fun m => Companion.mk m.path m.size) ++
            (prefixCompanions dirpath (cand.filename.take cand.match_end) um
              claimed1).1).map (fun c => c.size)).sum)
          disk relDir
          (restg.map (fun m => Companion.mk m.path m.size) ++
            (prefixCompanions dirpath (cand.filename.take cand.match_end) um
              claimed1).1) := by
  intro gs
  induction gs with
  | nil => exact fun st q e h => Or.inl h
  | cons g rest ih =>
    intro st q e h
    rw [List.foldl_cons] at h
    rcases ih _ q e h with hst |
      ⟨g₂, hg₂, hk₂, cand, restg, claimed1, hsort₂, hsz₂, he₂⟩
    · rcases hsort : sortDescBy (fun m => m.size) g.2 with _ | ⟨cand, restg⟩
      · rw [processGroup_eq_nil _ _ _ _ _ _ hsort] at hst
        exact Or.inl hst
      · by_cases hsz : cand.size > MIN_VIDEO_SIZE
        · rw [processGroup_eq_big _ _ _ _ _ _ _ _ hsort hsz] at hst
          rcases List.mem_append.1 hst with h₁ | h₂
          · exact Or.inl h₁
          · have heq := List.mem_singleton.1 h₂
            injection heq with hq he
            exact Or.inr ⟨g, List.mem_cons_self _ _, hq.symm, cand, restg, _,
              hsort, hsz, he⟩
        · rw [processGroup_eq_small _ _ _ _ _ _ _ _ hsort hsz] at hst
          exact Or.inl hst
    · exact Or.inr ⟨g₂, List.mem_cons_of_mem _ hg₂, hk₂, cand, restg, claimed1,
        hsort₂, hsz₂, he₂⟩

theorem pg_go_keys (disk : Name) (relDir dirpath : Path)
    (um : List (Name × Int)) :
    ∀ (gs : List (Slot × List MatchedFile))
      (st : List Name × List (Slot × EpisodeCopy)),
      ∃ ks, ((gs.foldl (processGroup disk relDir dirpath um) st).2).map
          (fun se => se.1) = st.2.map (fun se => se.1) ++ ks ∧
        ks.Sublist (gs.map (fun g => g.1)) := by
  intro gs
  induction gs with
  | nil => exact fun st => ⟨[], by simp, by simp⟩
  | cons g rest ih =>
    intro st
    rw [List.foldl_cons]
    obtain ⟨ks, hks, hsub⟩ := ih (processGroup disk relDir dirpath um st g)
    obtain ⟨t, ht, hcase⟩ := processGroup_entries_extend disk relDir dirpath um st g
    rw [ht] at hks
    rcases hcase with rfl | ⟨e, rfl⟩
    · refine ⟨ks, ?_, ?_⟩
      · rw [hks]
        simp
      · exact List.Sublist.cons _ hsub
    · refine ⟨g.1 :: ks, ?_, ?_⟩
      · rw [hks, List.map_append]
        simp
      · exact List.Sublist.cons₂ _ hsub

theorem processGroup_big_mem (disk : Name) (relDir dirpath : Path)
    (um : List (Name × Int)) (st : List Name × List (Slot × EpisodeCopy))
    (g : Slot × List MatchedFile) (cand : MatchedFile) (restg : List MatchedFile)
    (hsort : sortDescBy (fun m => m.size) g.2 = cand :: restg)
    (hsz : cand.size > MIN_VIDEO_SIZE) :
    ∃ e, (g.1, e) ∈ (processGroup disk relDir dirpath um st g).2 := by
  rw [processGroup_eq_big _ _ _ _ _ _ _ _ hsort hsz]
  exact ⟨_, List.mem_append_right _ (List.mem_singleton_self _)⟩

theorem pg_go_exists (disk : Name) (relDir dirpath : Path)
    (um : List (Name × Int)) :
    ∀ (gs : List (Slot × List MatchedFile))
      (st : List Name × List (Slot × EpisodeCopy))
      (g : Slot × List MatchedFile) (cand : MatchedFile)
      (restg : List MatchedFile), g ∈ gs →
      sortDescBy (fun m => m.size) g.2 = cand :: restg →
      cand.size > MIN_VIDEO_SIZE →
      ∃ e, (g.1, e) ∈ (gs.foldl (processGroup disk relDir dirpath um) st).2 := by
  intro gs
  induction gs with
  | nil => intro st g cand restg hg; exact absurd hg (List.not_mem_nil _)
  | cons g₁ rest ih =>
    intro st g cand restg hg hsort hsz
    rw [List.foldl_cons]
    rcases List.mem_cons.1 hg with rfl | hrest
    · obtain ⟨e, he⟩ := processGroup_big_mem disk relDir dirpath um st g cand restg
        hsort hsz
      exact ⟨e, pg_go_entries_mono disk relDir dirpath um rest _ _ e he⟩
    · exact ih _ g cand restg hrest hsort hsz

/-! ### C8: the pattern-end prefix of a match always contains the pattern -/

theorem takeWhile_append_stop (p : Char → Bool) :
    ∀ (l₁ : List Char) (h : Char) (rest : List Char),
      (∀ c ∈ l₁, p c = true) → p h = false →
      (l₁ ++ h :: rest).takeWhile p = l₁ := by
  intro l₁
  induction l₁ with
  | nil =>
    intro h rest _ hph
    simp [List.takeWhile_cons, hph]
  | cons a l ih =>
    intro h rest hall hph
    rw [List.cons_append, List.takeWhile_cons,
      if_pos (hall a (List.mem_cons_self _ _)),
      ih h rest (fun c hc => hall c (List.mem_cons_of_mem _ hc)) hph]

theorem takeWhile_nonempty_of (p : Char → Bool) (d t : List Char)
    (hne : d.isEmpty = false) (hall : ∀ c ∈ d, p c = true) :
    ((d ++ t).takeWhile p).isEmpty = false := by
  cases d with
  | nil => simp at hne
  | cons a l =>
    rw [List.cons_append, List.takeWhile_cons,
      if_pos (hall a (List.mem_cons_self _ _))]
    rfl

theorem seAt_inv (x : Name) (s e len : Nat) (h : seAt x = some (s, e, len)) :
    ∃ c rest d1 ec rest2 d2,
      x = c :: rest ∧ (c = 'S' ∨ c = 's') ∧
      d1 = rest.takeWhile Char.isDigit ∧ d1.isEmpty = false ∧
      rest.drop d1.length = ec :: rest2 ∧ (ec = 'E' ∨ ec = 'e') ∧
      d2 = rest2.takeWhile Char.isDigit ∧ d2.isEmpty = false ∧
      len = 1 + d1.length + 1 + d2.length := by
  cases x with
  | nil => exact absurd h (by simp [seAt])
  | cons c rest =>
    simp only [seAt] at h
    split at h
    · rename_i hc
      split at h
      · exact Option.noConfusion h
      · rename_i hd1
        split at h
        · exact Option.noConfusion h
        · rename_i ec rest2 hdrop
          split at h
          · rename_i hec
            split at h
            · exact Option.noConfusion h
            · rename_i hd2
              have h' := Option.some.inj h
              refine ⟨c, rest, rest.takeWhile Char.isDigit, ec, rest2,
                rest2.takeWhile Char.isDigit, rfl, ?_, rfl, ?_, hdrop, ?_, rfl,
                ?_, ?_⟩
              · simpa using hc
              · simpa using hd1
              · simpa using hec
              · simpa using hd2
              · have h3 := congrArg (fun t => t.2.2) h'
                simpa using h3.symm
          · exact Option.noConfusion h
    · exact Option.noConfusion h

theorem seAt_transfer (x f : Name) (s e len : Nat) (h : seAt x = some (s, e, len))
    (hpre : (x.take len).isPrefixOf f = true) : (seAt f).isSome = true := by
  obtain ⟨c, rest, d1, ec, rest2, d2, hx, hc, hd1eq, hd1, hdrop, hec, hd2eq,
    hd2, hlen⟩ := seAt_inv x s e len h
  have hall1 : ∀ ch ∈ d1, Char.isDigit ch = true := by
    intro ch hch
    rw [hd1eq] at hch
    exact List.mem_takeWhile_imp hch
  have hall2 : ∀ ch ∈ d2, Char.isDigit ch = true := by
    intro ch hch
    rw [hd2eq] at hch
    exact List.mem_takeWhile_imp hch
  have hsplit : rest = d1 ++ ec :: rest2 := by
    have hp : d1 <+: rest := hd1eq ▸ List.takeWhile_prefix _
    obtain ⟨t₁, ht₁⟩ := hp
    have hdl : rest.drop d1.length = t₁ := by
      rw [← ht₁, List.drop_left]
    rw [hdl] at hdrop
    rw [← ht₁, hdrop]
  have htake2 : rest2.take d2.length = d2 := by
    have hp : d2 <+: rest2 := hd2eq ▸ List.takeWhile_prefix _
    obtain ⟨t₂, ht₂⟩ := hp
    rw [← ht₂, List.take_left]
  have htake : x.take len = c :: (d1 ++ ec :: d2) := by
    rw [hx, hlen]
    have h1 : 1 + d1.length + 1 + d2.length =
        (d1.length + (1 + d2.length)) + 1 := by omega
    rw [h1, List.take_succ_cons]
    congr 1
    rw [hsplit, List.take_append]
    congr 1
    have h2 : 1 + d2.length = d2.length + 1 := by omega
    rw [h2, List.take_succ_cons, htake2]
  obtain ⟨tail, htail⟩ := List.isPrefixOf_iff_prefix.1 hpre
  have hf : f = c :: (d1 ++ ec :: (d2 ++ tail)) := by
    rw [← htail, htake]
    simp
  have hcb : (c = 'S' || c = 's') = true := by
    rcases hc with h' | h' <;> simp [h']
  have hecd : Char.isDigit ec = false := by
    rcases hec with rfl | rfl <;> decide
  have hd1e : ((d1 ++ ec :: (d2 ++ tail)).takeWhile Char.isDigit) = d1 :=
    takeWhile_append_stop Char.isDigit d1 ec (d2 ++ tail) hall1 hecd
  have hecb : (ec = 'E' || ec = 'e') = true := by
    rcases hec with rfl | rfl <;> decide
  have hd2e : (((d2 ++ tail)).takeWhile Char.isDigit).isEmpty = false :=
    takeWhile_nonempty_of Char.isDigit d2 tail hd2 hall2
  rw [hf]
  simp [seAt, hcb, hd1e, hd1, hecb, hd2e, List.drop_left]

theorem seSearchFrom_some (x : Name) :
    ∀ (pos s e me : Nat), seSearchFrom x pos = some (s, e, me) →
    ∃ k len, seAt (x.drop k) = some (s, e, len) ∧ me = pos + k + len := by
  induction x with
  | nil =>
    intro pos s e me h
    simp [seSearchFrom, seAt] at h
  | cons c rest ih =>
    intro pos s e me h
    rw [seSearchFrom] at h
    rcases hat : seAt (c :: rest) with _ | ⟨s₁, e₁, len₁⟩
    · simp only [hat] at h
      obtain ⟨k, len, hk, hme⟩ := ih (pos + 1) s e me h
      exact ⟨k + 1, len, hk, by omega⟩
    · simp only [hat] at h
      have h' := Option.some.inj h
      have hs : s₁ = s := congrArg (fun t => t.1) h'
      have he : e₁ = e := congrArg (fun t => t.2.1) h'
      have hm : pos + len₁ = me := congrArg (fun t => t.2.2) h'
      exact ⟨0, len₁, by rw [List.drop_zero, hat, hs, he], by omega⟩

theorem seSearchFrom_none (x : Name) :
    ∀ (pos : Nat), seSearchFrom x pos = none → ∀ k, seAt (x.drop k) = none := by
  induction x with
  | nil =>
    intro pos _ k
    rw [List.drop_nil]
    rfl
  | cons c rest ih =>
    intro pos h k
    rw [seSearchFrom] at h
    rcases hat : seAt (c :: rest) with _ | ⟨s₁, e₁, len₁⟩
    · simp only [hat] at h
      cases k with
      | zero => simpa using hat
      | succ k' => exact ih (pos + 1) h k'
    · simp only [hat] at h
      exact Option.noConfusion h

theorem seSearch_transfer (x f : Name) (s e me : Nat)
    (h : seSearch x = some (s, e, me))
    (hpre : (x.take me).isPrefixOf f = true) : seSearch f ≠ none := by
  obtain ⟨k, len, hat, hme⟩ := seSearchFrom_some x 0 s e me h
  have hknil : x.drop k ≠ [] := by
    intro h0
    rw [h0] at hat
    simp [seAt] at hat
  have hkle : k < x.length := by
    rcases Nat.lt_or_ge k x.length with h' | h'
    · exact h'
    · exact absurd (List.drop_eq_nil_iff.2 h') hknil
  have hme' : me = k + len := by omega
  obtain ⟨tail, htail⟩ := List.isPrefixOf_iff_prefix.1 hpre
  have hx_take : x.take me = x.take k ++ (x.drop k).take len := by
    rw [hme', List.take_add]
  have hlenk : (x.take k).length = k := by
    rw [List.length_take]
    omega
  have hfdrop : f.drop k = (x.drop k).take len ++ tail := by
    rw [← htail, hx_take, List.append_assoc, List.drop_left' hlenk]
  have hpre2 : ((x.drop k).take len).isPrefixOf (f.drop k) = true := by
    rw [List.isPrefixOf_iff_prefix]
    exact ⟨tail, hfdrop.symm⟩
  have hsome := seAt_transfer (x.drop k) (f.drop k) s e len hat hpre2
  intro hn
  have hnone := seSearchFrom_none f 0 hn k
  rw [hnone] at hsome
  simp at hsome

theorem pc_go_nil (dirpath : Path) (pfx : Name) :
    ∀ (um : List (Name × Int)) (acc : List Companion × List Name),
      (∀ fe ∈ um, pfx.isPrefixOf fe.1 = false) →
      um.foldl (pcStep dirpath pfx) acc = acc := by
  intro um
  induction um with
  | nil => exact fun acc _ => rfl
  | cons fe rest ih =>
    intro acc hall
    rw [List.foldl_cons]
    have hstep : pcStep dirpath pfx acc fe = acc := by
      by_cases h1 : fe.1 ∈ acc.2
      · simp only [pcStep, if_pos h1]
      · have hp := hall fe (List.mem_cons_self _ _)
        simp only [pcStep, if_neg h1]
        rw [if_neg (by simp [hp])]
    rw [hstep]
    exact ih acc (fun fe' h' => hall fe' (List.mem_cons_of_mem _ h'))

theorem processDir_entries (disk : Name) (seriesPath relDir : Path)
    (files : List (Name × Int)) :
    (processDir disk seriesPath relDir files).entries =
      ((buildGroups (seriesPath ++ relDir) files).1.foldl
        (processGroup disk relDir (seriesPath ++ relDir)
          (buildGroups (seriesPath ++ relDir) files).2) ([], [])).2 := rfl

/-- C8: local highlander.  (a) At most one EpisodeCopy is recorded per
(season, episode) slot of a scanned directory.  (b) Every recorded entry
comes from the slot's match group: its canonical file is a member of that
group of maximal size, strictly above `MIN_VIDEO_SIZE`, and its companions
are exactly the remaining same-pattern matches (sorted by descending size);
the aggregate size is the canonical size plus the companion sizes.  (c) A
slot whose largest match exceeds the threshold always yields an entry.
(d) The prefix-companion pass on the unmatched files: a not-yet-claimed
unmatched file carrying the prefix is recorded as a companion — and, for
the prefixes the scanner actually uses (a canonical name cut at the match
end), no unmatched file of the directory can carry the prefix, since the
prefix itself contains the `SxxEyy` pattern. -/
theorem c8_local_highlander (disk : Name) (seriesPath relDir : Path)
    (files : List (Name × Int)) :
    (((processDir disk seriesPath relDir files).entries.map
        (fun se => se.1)).Nodup) ∧
    (∀ q e₁, (q, e₁) ∈ (processDir disk seriesPath relDir files).entries →
      ∃ g ∈ (buildGroups (seriesPath ++ relDir) files).1, g.1 = q ∧
        (∀ m ∈ g.2, seSearch m.filename = some (q.1, q.2, m.match_end) ∧
          (m.filename, m.size) ∈ files) ∧
        ∃ cand restg, sortDescBy (fun m => m.size) g.2 = cand :: restg ∧
          cand ∈ g.2 ∧
          (∀ m ∈ g.2, m.size ≤ cand.size) ∧
          cand.size > MIN_VIDEO_SIZE ∧
          e₁ = EpisodeCopy.mk cand.path cand.size
            (cand.size +
              ((restg.map (fun m => Companion.mk m.path m.size)).map
                (fun c => c.size)).sum)
            disk relDir (restg.map (fun m => Companion.mk m.path m.size))) ∧
    (∀ g ∈ (buildGroups (seriesPath ++ relDir) files).1,
      ∀ (cand : MatchedFile) (restg : List MatchedFile),
      sortDescBy (fun m => m.size) g.2 = cand :: restg →
      cand.size > MIN_VIDEO_SIZE →
      ∃ e₁, (g.1, e₁) ∈ (processDir disk seriesPath relDir files).entries) ∧
    (∀ (dp : Path) (pfx : Name) (um : List (Name × Int)) (claimed : List Name)
      (f : Name) (sz : Int), (f, sz) ∈ um → ¬ f ∈ claimed →
      pfx.isPrefixOf f = true → (um.map (fun fe => fe.1)).Nodup →
      Companion.mk (dp ++ [f]) sz ∈ (prefixCompanions dp pfx um claimed).1) ∧
    (∀ f sz, (f, sz) ∈ (buildGroups (seriesPath ++ relDir) files).2 →
      ∀ g ∈ (buildGroups (seriesPath ++ relDir) files).1, ∀ m ∈ g.2,
        ((m.filename.take m.match_end).isPrefixOf f) = false) := by
  have hvac : ∀ (f : Name) (sz : Int),
      (f, sz) ∈ (buildGroups (seriesPath ++ relDir) files).2 →
      ∀ g ∈ (buildGroups (seriesPath ++ relDir) files).1, ∀ m ∈ g.2,
        ((m.filename.take m.match_end).isPrefixOf f) = false := by
    intro f sz hfz g hg m hm
    have hnone : seSearch f = none := by
      rw [buildGroups_um] at hfz
      exact Option.isNone_iff_eq_none.1 (List.mem_filter.1 hfz).2
    have hse := (buildGroups_members (seriesPath ++ relDir) files g hg m hm).1
    by_contra hcontra
    have hpre : ((m.filename.take m.match_end).isPrefixOf f) = true := by
      revert hcontra
      cases ((m.filename.take m.match_end).isPrefixOf f) <;> simp
    exact (seSearch_transfer m.filename f g.1.1 g.1.2 m.match_end hse hpre) hnone
  refine ⟨?_, ?_, ?_, ?_, hvac⟩
  · rw [processDir_entries]
    obtain ⟨ks, hks, hsub⟩ := pg_go_keys disk relDir (seriesPath ++ relDir)
      (buildGroups (seriesPath ++ relDir) files).2
      (buildGroups (seriesPath ++ relDir) files).1 ([], [])
    rw [hks]
    simpa using hsub.nodup (buildGroups_keys_nodup (seriesPath ++ relDir) files)
  · intro q e₁ he
    rw [processDir_entries] at he
    rcases pg_go_entries_origin disk relDir (seriesPath ++ relDir)
        (buildGroups (seriesPath ++ relDir) files).2
        (buildGroups (seriesPath ++ relDir) files).1 ([], []) q e₁ he with h0 |
      ⟨g, hg, hk, cand, restg, claimed1, hsort, hsz, he₁⟩
    · exact absurd h0 (List.not_mem_nil _)
    · have hperm := sortDescBy_perm (fun m => m.size) g.2
      have hcand_mem : cand ∈ g.2 := by
        refine hperm.mem_iff.1 ?_
        rw [hsort]
        exact List.mem_cons_self _ _
      have hmax : ∀ m ∈ g.2, m.size ≤ cand.size := by
        intro m hm
        have hm' : m ∈ sortDescBy (fun m => m.size) g.2 := hperm.mem_iff.2 hm
        rw [hsort] at hm'
        rcases List.mem_cons.1 hm' with rfl | hm₂
        · exact le_refl _
        · have hsorted := sortDescBy_sorted (fun m => m.size) g.2
          rw [hsort] at hsorted
          exact (List.pairwise_cons.1 hsorted).1 m hm₂
      have hcand_se := (buildGroups_members (seriesPath ++ relDir) files g hg
        cand hcand_mem).1
      have hvac' : ∀ fe ∈ (buildGroups (seriesPath ++ relDir) files).2,
          ((cand.filename.take cand.match_end).isPrefixOf fe.1) = false :=
        fun fe hfe => hvac fe.1 fe.2 hfe g hg cand hcand_mem
      have hpres1 : (prefixCompanions (seriesPath ++ relDir)
          (cand.filename.take cand.match_end)
          (buildGroups (seriesPath ++ relDir) files).2 claimed1).1 = [] := by
        rw [prefixCompanions, pc_go_nil (seriesPath ++ relDir)
          (cand.filename.take cand.match_end)
          (buildGroups (seriesPath ++ relDir) files).2 ([], claimed1) hvac']
      refine ⟨g, hg, hk, ?_, cand, restg, hsort, hcand_mem, hmax, hsz, ?_⟩
      · intro m hm
        have hb := buildGroups_members (seriesPath ++ relDir) files g hg m hm
        rw [hk] at hb
        exact ⟨hb.1, hb.2.2⟩
      · rw [he₁, hpres1, List.append_nil]
  · intro g hg cand restg hsort hsz
    rw [processDir_entries]
    exact pg_go_exists disk relDir (seriesPath ++ relDir)
      (buildGroups (seriesPath ++ relDir) files).2
      (buildGroups (seriesPath ++ relDir) files).1 ([], []) g cand restg hg
      hsort hsz
  · exact fun dp pfx um claimed f sz hmem hncl hpre hnd =>
      (prefixCompanions_adds dp pfx um claimed f sz hmem hncl hpre hnd).1

theorem c8_witness :
    (((processDir rootA [rootA, "Foo".data] []
        [("Foo.S01E01.mkv".data, (60000000 : Int)),
         ("Foo.S01E01.srt".data, 7), ("note.txt".data, 3)]).entries.map
        (fun se => se.1)).Nodup) ∧
    (∃ e₁, ((1, 1), e₁) ∈ (processDir rootA [rootA, "Foo".data] []
        [("Foo.S01E01.mkv".data, (60000000 : Int)),
         ("Foo.S01E01.srt".data, 7), ("note.txt".data, 3)]).entries) ∧
    Companion.mk [rootA, "ax".data] 5 ∈
      (prefixCompanions [rootA] ("a".data) [(("ax".data : Name), (5 : Int))]
        []).1 := by
  have h := c8_local_highlander rootA [rootA, "Foo".data] []
    [("Foo.S01E01.mkv".data, (60000000 : Int)),
     ("Foo.S01E01.srt".data, 7), ("note.txt".data, 3)]
  refine ⟨h.1, ?_, ?_⟩
  · exact h.2.2.1
      ((1, 1),
       [MatchedFile.mk ("Foo.S01E01.mkv".data)
          [rootA, "Foo".data, "Foo.S01E01.mkv".data] 60000000 10,
        MatchedFile.mk ("Foo.S01E01.srt".data)
          [rootA, "Foo".data, "Foo.S01E01.srt".data] 7 10])
      (by decide)
      (MatchedFile.mk ("Foo.S01E01.mkv".data)
        [rootA, "Foo".data, "Foo.S01E01.mkv".data] 60000000 10)
      [MatchedFile.mk ("Foo.S01E01.srt".data)
        [rootA, "Foo".data, "Foo.S01E01.srt".data] 7 10]
      (by decide) (by decide)
  · exact h.2.2.2.1 [rootA] ("a".data) [(("ax".data : Name), (5 : Int))] []
      ("ax".data) 5 (by decide) (by decide) (by decide) (by decide)

end TVC
